import Mathlib

/-!
Implicit-key treap with lazy reverse / assign tags (`src/treap.h`).

Shallow embedding of the pointer structure of `treap.h`.  A `Node<DataType>*`
is a value of `Treap.Node α`: `null` is `nullptr`, `mk` is a pointer to a live
node together with everything it owns.  Functions that mutate through a
`Node*&` return the mutated tree.
-/

namespace Treap

/-- A `Node<DataType>*` of `treap.h`: either `nullptr` or a node with the fields
`left, right, value, toAssign, size, priority, reverse, assign` of `struct Node`.
`size` is a `uint64_t`, kept as a natural number; `priority` is an `int32_t`. -/
inductive Node (α : Type) where
  | null : Node α
  | mk (left right : Node α) (value toAssign : α) (size : Nat) (priority : Int)
      (reverse assign : Bool) : Node α
  deriving DecidableEq

variable {α : Type}

/-- Constructor `Node(const DataType &from)`: a leaf of size 1 with the drawn
priority `prio` (the result of `rand()`); `toAssign` is default-constructed. -/
def newNode [Inhabited α] (value : α) (prio : Int) : Node α :=
  .mk .null .null value default 1 prio false false

/-- Constructor `Node()`: the size-0 placeholder node that `insert` replaces by
the first real node (it is a node, not the absent root). -/
def emptyNode [Inhabited α] : Node α :=
  .mk .null .null default default 0 0 false false

/-- Number of nodes reachable from a pointer (not a source function; the
measure along which every recursion of `treap.h` descends). -/
def nodes : Node α → Nat
  | .null => 0
  | .mk l r _ _ _ _ _ _ => nodes l + nodes r + 1

/-- Source `size(root)`: the stored count, 0 for `nullptr`. -/
def size : Node α → Nat
  | .null => 0
  | .mk _ _ _ _ s _ _ _ => s

/-- Source `update(root)`: recompute the stored size from the two children.
The field is a `uint64_t`; on a tree with the size invariant the sum is the
number of its allocated nodes, which stays below `2^64`, so it is kept as a
natural number without reduction. -/
def update : Node α → Node α
  | .null => .null
  | .mk l r v ta _ p rev asg => .mk l r v ta (size l + size r + 1) p rev asg

/-- Source `assign(root, toAssign)`: overwrite the value and leave a pending
assign tag. -/
def assign : Node α → α → Node α
  | .null, _ => .null
  | .mk l r _ _ s p rev _, x => .mk l r x x s p rev true

/-- Source `reverse(root)` (one argument): toggle the pending-reverse flag and
swap the two child pointers. -/
def reverse : Node α → Node α
  | .null => .null
  | .mk l r v ta s p rev asg => .mk r l v ta s p (!rev) asg

/-- Source `push(root)`: hand the pending assign tag, then the pending reverse
tag, to both children and clear them.  The source dereferences `root`, and
every caller has tested it against `nullptr` before; `null` is returned as is. -/
def push : Node α → Node α
  | .null => .null
  | .mk l r v ta s p rev asg =>
    let l1 := if asg then assign l ta else l
    let r1 := if asg then assign r ta else r
    let l2 := if rev then reverse l1 else l1
    let r2 := if rev then reverse r1 else r1
    .mk l2 r2 v ta s p false false

theorem nodes_assign (t : Node α) (x : α) : nodes (assign t x) = nodes t := by
  cases t <;> simp [assign, nodes]

theorem nodes_reverse (t : Node α) : nodes (reverse t) = nodes t := by
  cases t <;> simp [reverse, nodes]; omega

theorem nodes_push (t : Node α) : nodes (push t) = nodes t := by
  cases t with
  | null => rfl
  | mk l r v ta s p rev asg =>
    cases rev <;> cases asg <;> simp [push, nodes, nodes_assign, nodes_reverse]

theorem nodes_push_left {t l r : Node α} {v ta : α} {s : Nat} {p : Int} {rev asg : Bool}
    (h : push t = .mk l r v ta s p rev asg) : nodes l < nodes t := by
  have h1 := congrArg nodes h
  rw [nodes_push] at h1
  simp only [nodes] at h1
  omega

theorem nodes_push_right {t l r : Node α} {v ta : α} {s : Nat} {p : Int} {rev asg : Bool}
    (h : push t = .mk l r v ta s p rev asg) : nodes r < nodes t := by
  have h1 := congrArg nodes h
  rw [nodes_push] at h1
  simp only [nodes] at h1
  omega

/-- Source `print(root)`: in-order output, pushing the tags of every node before
its children are visited.  Returns the tree as the pushes leave it and the
sequence written to the output stream. -/
def print : Node α → Node α × List α
  | .null => (.null, [])
  | .mk l r v ta s p rev asg =>
    match h : push (.mk l r v ta s p rev asg) with
    | .null => (.null, [])
    | .mk l1 r1 v1 ta1 s1 p1 rev1 asg1 =>
      let resL := print l1
      let resR := print r1
      (.mk resL.1 resR.1 v1 ta1 s1 p1 rev1 asg1, resL.2 ++ v1 :: resR.2)
termination_by t => nodes t
decreasing_by
  · exact nodes_push_left h
  · exact nodes_push_right h

/-- The sequence a traversal of the tree produces (the output of `print`). -/
def traverse (t : Node α) : List α := (print t).2

/-- Source `split(root, left, right, index)` (by index); the two reference
parameters are returned as the pair `(left, right)`. -/
def split : Node α → Nat → Node α × Node α
  | .null, _ => (.null, .null)
  | .mk l r v ta s p rev asg, index =>
    match h : push (.mk l r v ta s p rev asg) with
    | .null => (.null, .null)
    | .mk l1 r1 v1 ta1 s1 p1 rev1 asg1 =>
      if index ≤ size l1 then
        let res := split l1 index
        (res.1, update (.mk res.2 r1 v1 ta1 s1 p1 rev1 asg1))
      else
        let res := split r1 (index - size l1 - 1)
        (update (.mk l1 res.1 v1 ta1 s1 p1 rev1 asg1), res.2)
termination_by t => nodes t
decreasing_by
  · exact nodes_push_left h
  · exact nodes_push_right h

/-- Source `merge(left, right)`: both roots are pushed, the root with the
strictly smaller priority stays on top, ties go to `right`. -/
def merge : Node α → Node α → Node α
  | .null, right => right
  | .mk l r v ta s p rev asg, .null => .mk l r v ta s p rev asg
  | .mk ll lr lv lta ls lp lrev lasg, .mk rl rr rv rta rs rp rrev rasg =>
    match hl : push (.mk ll lr lv lta ls lp lrev lasg),
          hr : push (.mk rl rr rv rta rs rp rrev rasg) with
    | .mk ll1 lr1 lv1 lta1 ls1 lp1 lrev1 lasg1, .mk rl1 rr1 rv1 rta1 rs1 rp1 rrev1 rasg1 =>
      if lp1 < rp1 then
        update (.mk ll1 (merge lr1 (.mk rl1 rr1 rv1 rta1 rs1 rp1 rrev1 rasg1))
          lv1 lta1 ls1 lp1 lrev1 lasg1)
      else
        update (.mk (merge (.mk ll1 lr1 lv1 lta1 ls1 lp1 lrev1 lasg1) rl1)
          rr1 rv1 rta1 rs1 rp1 rrev1 rasg1)
    | _, _ => .null
termination_by l r => nodes l + nodes r
decreasing_by
  · have h1 := nodes_push_right hl
    have h2 := congrArg nodes hr
    rw [nodes_push] at h2
    omega
  · have h1 := nodes_push_left hr
    have h2 := congrArg nodes hl
    rw [nodes_push] at h2
    omega

/-- The one error of `treap.h`: `std::out_of_range`. -/
inductive Error where
  | outOfRange : Error
  deriving DecidableEq

/-- Source `at(root, index)`: throws when `index >= size(root)`, else pushes
and descends.  Returns the tree as the pushes leave it and the outcome. -/
def at_ : Node α → Nat → Node α × Except Error α
  | .null, _ => (.null, .error .outOfRange)
  | .mk l r v ta s p rev asg, index =>
    if index ≥ s then (.mk l r v ta s p rev asg, .error .outOfRange)
    else
      match h : push (.mk l r v ta s p rev asg) with
      | .null => (.null, .error .outOfRange)
      | .mk l1 r1 v1 ta1 s1 p1 rev1 asg1 =>
        if size l1 = index then (.mk l1 r1 v1 ta1 s1 p1 rev1 asg1, .ok v1)
        else if index ≤ size l1 then
          let res := at_ l1 index
          (.mk res.1 r1 v1 ta1 s1 p1 rev1 asg1, res.2)
        else
          let res := at_ r1 (index - size l1 - 1)
          (.mk l1 res.1 v1 ta1 s1 p1 rev1 asg1, res.2)
termination_by t => nodes t
decreasing_by
  · exact nodes_push_left h
  · exact nodes_push_right h

/-- Source `replace(root, to, index)`: descend by sizes, overwrite the value of
the node reached, `update` on the way back. -/
def replace : Node α → α → Nat → Node α
  | .null, _, _ => .null
  | .mk l r v ta s p rev asg, to_, index =>
    match h : push (.mk l r v ta s p rev asg) with
    | .null => .null
    | .mk l1 r1 v1 ta1 s1 p1 rev1 asg1 =>
      if size l1 = index then update (.mk l1 r1 to_ ta1 s1 p1 rev1 asg1)
      else if index ≤ size l1 then
        update (.mk (replace l1 to_ index) r1 v1 ta1 s1 p1 rev1 asg1)
      else
        update (.mk l1 (replace r1 to_ (index - size l1 - 1)) v1 ta1 s1 p1 rev1 asg1)
termination_by t => nodes t
decreasing_by
  · exact nodes_push_left h
  · exact nodes_push_right h

/-- Source `insert(root, value, index)`; `prio` is the priority `rand()` gives
the new node.  `root->size` is read first, so a `nullptr` root is dereferenced:
`none` stands for that call, which has no defined result. -/
def insert [Inhabited α] : Node α → α → Nat → Int → Option (Node α)
  | .null, _, _, _ => none
  | .mk l r v ta s p rev asg, value, index, prio =>
    if s = 0 then some (newNode value prio)
    else
      let temp := newNode value prio
      let res := split (.mk l r v ta s p rev asg) index
      let left := merge res.1 temp
      some (merge left res.2)

/-- Source `erase(root, index)`: the new value of `root`. -/
def erase (root : Node α) (index : Nat) : Node α :=
  let res1 := split root index
  let res2 := split res1.2 1
  merge res1.1 res2.2

/-- The three trees `first`, `second`, `third` that `apply` holds between its
splits and its merges. -/
structure Parts (α : Type) where
  first : Node α
  second : Node α
  third : Node α

/-- The tree among `first`, `second`, `third` whose top node is the node the
caller's `root` pointer still points to. -/
inductive Slot where
  | first : Slot
  | second : Slot
  | third : Slot
  deriving DecidableEq

/-- The expression `rightIndex - leftIndex + 1` of `apply` on `size_t` (64 bits,
wrapping), for operands below `2^64`. -/
def rangeLength (leftIndex rightIndex : Nat) : Nat :=
  (rightIndex + 2 ^ 64 - leftIndex + 1) % 2 ^ 64

/-- Where the node `root` points to ends up in `apply`.  `split` is handed
`root` by value and leaves the node it was called on on top of `right` when
`index <= size(root->left)` (line 99) and on top of `left` otherwise (line 103).
So after `split(root, first, second, leftIndex)` the node tops `second` or
`first`; in the former case `split(second, second, third, k)` moves it on top of
`third` when `k <= size(second->left)` and keeps it on top of `second`
otherwise. -/
def rootSlot (root : Node α) (leftIndex k : Nat) : Slot :=
  match push root with
  | .null => .first
  | .mk l1 _ _ _ _ _ _ _ =>
    if leftIndex ≤ size l1 then
      if k ≤ size (split l1 leftIndex).2 then .third else .second
    else .first

/-- Source `apply(root, leftIndex, rightIndex, lambda)`.  The lambda is called
as `lambda(root, second)` with two pointers into the three trees; its effect on
them is a function of the three trees and of the slot `root` points into, and
it returns a result of type `ρ`.  Returns the final value of the caller's
`root` and the outcome. -/
def apply {ρ : Type} (root : Node α) (leftIndex rightIndex : Nat)
    (lambda : Slot → Parts α → Parts α × ρ) : Node α × Except Error ρ :=
  if leftIndex ≥ size root ∨ rightIndex ≥ size root then
    (root, .error .outOfRange)
  else
    let res1 := split root leftIndex
    let k := rangeLength leftIndex rightIndex
    let res2 := split res1.2 k
    let out := lambda (rootSlot root leftIndex k) ⟨res1.1, res2.1, res2.2⟩
    let root1 := merge out.1.first out.1.second
    (merge root1 out.1.third, .ok out.2)

/-- The lambda of `reverse(root, leftIndex, rightIndex)`: `reverse(_root)`, on
the node the first argument points to; returns `EXIT_SUCCESS`. -/
def reverseLambda : Slot → Parts α → Parts α × Int
  | .first, parts => (⟨reverse parts.first, parts.second, parts.third⟩, 0)
  | .second, parts => (⟨parts.first, reverse parts.second, parts.third⟩, 0)
  | .third, parts => (⟨parts.first, parts.second, reverse parts.third⟩, 0)

/-- The lambda of `assignRange`: `assign(second, value)`; returns
`EXIT_SUCCESS`. -/
def assignLambda (value : α) : Slot → Parts α → Parts α × Int
  | _, parts => (⟨parts.first, assign parts.second value, parts.third⟩, 0)

/-- Source `reverse(root, leftIndex, rightIndex)` (three arguments): the final
`root`, and the error if `apply` threw. -/
def reverseRange (root : Node α) (leftIndex rightIndex : Nat) : Node α × Except Error Unit :=
  let res := apply root leftIndex rightIndex reverseLambda
  (res.1, res.2.map fun _ => ())

/-- Source `assignRange(root, value, leftIndex, rightIndex)`. -/
def assignRange (root : Node α) (value : α) (leftIndex rightIndex : Nat) :
    Node α × Except Error Unit :=
  let res := apply root leftIndex rightIndex (assignLambda value)
  (res.1, res.2.map fun _ => ())

/-- The two query modes `Action::Higher` and `Action::HigherOrEqual` that
`treap.h` passes to the comparator. -/
inductive Action where
  | Higher : Action
  | HigherOrEqual : Action
  deriving DecidableEq

/-- Source `split(root, left, right, point, action)` (by predicate).  The
method `root->value.compare(point, action)` belongs to the element type, which
`treap.h` does not declare; it is the parameter `compare`.  A node whose
comparison is false goes to `right` (line 116), a node whose comparison is true
goes to `left` (line 120). -/
def splitBy {κ : Type} (compare : α → κ → Action → Bool) :
    Node α → κ → Action → Node α × Node α
  | .null, _, _ => (.null, .null)
  | .mk l r v ta s p rev asg, point, action =>
    match h : push (.mk l r v ta s p rev asg) with
    | .null => (.null, .null)
    | .mk l1 r1 v1 ta1 s1 p1 rev1 asg1 =>
      if !compare v1 point action then
        let res := splitBy compare l1 point action
        (res.1, update (.mk res.2 r1 v1 ta1 s1 p1 rev1 asg1))
      else
        let res := splitBy compare r1 point action
        (update (.mk l1 res.1 v1 ta1 s1 p1 rev1 asg1), res.2)
termination_by t => nodes t
decreasing_by
  · exact nodes_push_left h
  · exact nodes_push_right h

/-- Source `insert(root, temp, point)` (by predicate): the new value of `root`.
A `nullptr` root and a size-0 placeholder are both replaced by `temp`. -/
def insertBy {κ : Type} (compare : α → κ → Action → Bool) (root temp : Node α)
    (point : κ) : Node α :=
  match root with
  | .null => temp
  | .mk l r v ta s p rev asg =>
    if s = 0 then temp
    else
      let res := splitBy compare (.mk l r v ta s p rev asg) point .Higher
      merge res.1 (merge temp res.2)

/-- The predicate insert as the specification words it: split at "strictly
greater than key" into `(left, right)`, then `merge(merge(left, newNode), right)`. -/
def insertBySpec {κ : Type} (compare : α → κ → Action → Bool) (root newNode : Node α)
    (key : κ) : Node α :=
  let res := splitBy compare root key .Higher
  merge (merge res.1 newNode) res.2

/-- Source `erase(root, point)` (by predicate): the new value of `root`.  The
band `second` between the two splits is handed to `destroy`, which frees it. -/
def eraseBy {κ : Type} (compare : α → κ → Action → Bool) (root : Node α) (point : κ) :
    Node α :=
  let res1 := splitBy compare root point .Higher
  let res2 := splitBy compare res1.2 point .HigherOrEqual
  merge res1.1 res2.2

/-- The sequence a tree stands for, pending tags read off without pushing
them: a pending assign makes every element below the node equal to `toAssign`,
a pending reverse mirrors each child (the children themselves were swapped when
the tag was set). -/
def toList : Node α → List α
  | .null => []
  | .mk l r v ta _ _ rev asg =>
    let ls := if asg then (toList l).map (fun _ => ta) else toList l
    let rs := if asg then (toList r).map (fun _ => ta) else toList r
    (if rev then ls.reverse else ls) ++ v :: (if rev then rs.reverse else rs)

/-- Size invariant: every node stores `1 + size(left) + size(right)`. -/
def SizeInv : Node α → Prop
  | .null => True
  | .mk l r _ _ s _ _ _ => s = 1 + size l + size r ∧ SizeInv l ∧ SizeInv r

/-- Priority of the top node compared with a bound: `p <= priority(child)`,
true for an absent child. -/
def PrioLe (p : Int) : Node α → Prop
  | .null => True
  | .mk _ _ _ _ _ q _ _ => p ≤ q

/-- Heap invariant: every node has a priority at most that of each child. -/
def Heap : Node α → Prop
  | .null => True
  | .mk l r _ _ _ p _ _ => PrioLe p l ∧ PrioLe p r ∧ Heap l ∧ Heap r

instance decidableSizeInv : (t : Node α) → Decidable (SizeInv t)
  | .null => isTrue trivial
  | .mk l r _ _ s _ _ _ =>
    have := decidableSizeInv l
    have := decidableSizeInv r
    inferInstanceAs (Decidable (s = 1 + size l + size r ∧ SizeInv l ∧ SizeInv r))

instance decidablePrioLe (p : Int) : (t : Node α) → Decidable (PrioLe p t)
  | .null => isTrue trivial
  | .mk _ _ _ _ _ q _ _ => inferInstanceAs (Decidable (p ≤ q))

instance decidableHeap : (t : Node α) → Decidable (Heap t)
  | .null => isTrue trivial
  | .mk l r _ _ _ p _ _ =>
    have := decidableHeap l
    have := decidableHeap r
    inferInstanceAs (Decidable (PrioLe p l ∧ PrioLe p r ∧ Heap l ∧ Heap r))

/-- Shape of a tree with the stored size and the priority of every node, values
and tags left out. -/
inductive Skel where
  | leaf : Skel
  | node (left right : Skel) (size : Nat) (priority : Int) : Skel
  deriving DecidableEq

/-- Mirror image of a shape. -/
def Skel.mirror : Skel → Skel
  | .leaf => .leaf
  | .node l r s p => .node (Skel.mirror r) (Skel.mirror l) s p

/-- The shape as the pointers stand, pending tags not resolved. -/
def skeleton : Node α → Skel
  | .null => .leaf
  | .mk l r _ _ s p _ _ => .node (skeleton l) (skeleton r) s p

/-- The shape a tree stands for, pending reverse tags read off without pushing
them (as `toList` does for the sequence): under a pending reverse each child
stands for its mirror image.  On a tree without pending reverse tags this is
`skeleton`. -/
def shapeOf : Node α → Skel
  | .null => .leaf
  | .mk l r _ _ s p rev _ =>
    .node (if rev then (shapeOf l).mirror else shapeOf l)
      (if rev then (shapeOf r).mirror else shapeOf r) s p

/-! ## Sample trees -/

/-- The sequence `[10, 20, 30]` with `20` on top (priorities 5, 1, 7). -/
def balanced3 : Node Int :=
  .mk (.mk .null .null 10 0 1 5 false false) (.mk .null .null 30 0 1 7 false false)
    20 0 3 1 false false

/-- A tree with both tags pending on its top node: a pending assign of `7` and
a pending reverse over the children `[1, 2]` and `[3]`. -/
def tagged4 : Node Int :=
  .mk (.mk .null (.mk .null .null 2 0 1 9 false false) 1 0 2 4 false false)
    (.mk .null .null 3 0 1 6 false false) 5 7 4 2 true true

/-- The sequence `[10, 20, 30]` as a right spine whose two upper nodes have the
same priority (priorities 1, 1, 2). -/
def tied3 : Node Int :=
  .mk .null
    (.mk .null (.mk .null .null 30 0 1 2 false false) 20 0 2 1 false false)
    10 0 3 1 false false

/-- Trees built by predicate-keyed inserts: the empty root (`nullptr`, or the
placeholder `Node()`), and `insert(root, temp, point)` of a fresh node `temp`
whose key `keyOf value` is the `point` handed to the call. -/
inductive Built {κ : Type} [Inhabited α] (compare : α → κ → Action → Bool) (keyOf : α → κ) :
    Node α → Prop where
  | null : Built compare keyOf .null
  | placeholder : Built compare keyOf emptyNode
  | insert (root : Node α) (value : α) (prio : Int) :
      Built compare keyOf root →
      Built compare keyOf (insertBy compare root (newNode value prio) (keyOf value))

/-- Modelled from the spec: the comparator on integer keys, answering the two
modes the specification names, "strictly greater" (`Higher`) and
"greater-or-equal" (`HigherOrEqual`), for the element against the query key.
The element type of the predicate-keyed variant and its `compare` method are
not declared in `treap.h`. -/
def orderCompare (value key : Int) : Action → Bool
  | .Higher => decide (value > key)
  | .HigherOrEqual => decide (value ≥ key)

/-- The keys `[5, 3, 1]` with `3` on top (priorities 4, 1, 6). -/
def keyed3 : Node Int :=
  .mk (.mk .null .null 5 0 1 4 false false) (.mk .null .null 1 0 1 6 false false)
    3 0 3 1 false false

/-! ## Induction along the pushed children -/

theorem push_mk (l r : Node α) (v ta : α) (s : Nat) (p : Int) (rev asg : Bool) :
    ∃ l1 r1, push (.mk l r v ta s p rev asg) = .mk l1 r1 v ta s p false false :=
  ⟨_, _, rfl⟩

theorem push_flags {t l1 r1 : Node α} {v ta : α} {s : Nat} {p : Int} {rev asg : Bool}
    (h : push t = .mk l1 r1 v ta s p rev asg) : rev = false ∧ asg = false := by
  cases t with
  | null => simp [push] at h
  | mk l r v0 ta0 s0 p0 rev0 asg0 =>
    simp only [push, Node.mk.injEq] at h
    exact ⟨h.2.2.2.2.2.2.1.symm, h.2.2.2.2.2.2.2.symm⟩

theorem push_idem (t : Node α) : push (push t) = push t := by
  cases t with
  | null => rfl
  | mk l r v ta s p rev asg => simp [push]

theorem push_induction {P : Node α → Prop} (hnull : P .null)
    (hmk : ∀ (t l1 r1 : Node α) (v ta : α) (s : Nat) (p : Int),
      push t = .mk l1 r1 v ta s p false false → P l1 → P r1 → P t) :
    ∀ t, P t := by
  intro t
  generalize hn : nodes t = n
  induction n using Nat.strong_induction_on generalizing t with
  | _ n ih =>
    subst hn
    cases t with
    | null => exact hnull
    | mk l r v ta s p rev asg =>
      obtain ⟨l1, r1, h⟩ := push_mk l r v ta s p rev asg
      have h1 := nodes_push_left h
      have h2 := nodes_push_right h
      exact hmk _ l1 r1 v ta s p h (ih _ h1 l1 rfl) (ih _ h2 r1 rfl)

/-! ## The sequence of a tree under the tag operations -/

theorem toList_assign (t : Node α) (x : α) :
    toList (assign t x) = (toList t).map (fun _ => x) := by
  cases t with
  | null => rfl
  | mk l r v ta s p rev asg =>
    cases rev <;> cases asg <;>
      simp [assign, toList, List.map_reverse, Function.comp_def]

theorem toList_reverse (t : Node α) : toList (reverse t) = (toList t).reverse := by
  cases t with
  | null => rfl
  | mk l r v ta s p rev asg =>
    cases rev <;> cases asg <;> simp [reverse, toList]

theorem toList_push (t : Node α) : toList (push t) = toList t := by
  cases t with
  | null => rfl
  | mk l r v ta s p rev asg =>
    cases rev <;> cases asg <;> simp [push, toList, toList_assign, toList_reverse]

theorem toList_update (t : Node α) : toList (update t) = toList t := by
  cases t <;> simp [update, toList]

theorem print_of_push {t l1 r1 : Node α} {v ta : α} {s : Nat} {p : Int} {rev asg : Bool}
    (h : push t = .mk l1 r1 v ta s p rev asg) :
    print t
      = (.mk (print l1).1 (print r1).1 v ta s p rev asg, (print l1).2 ++ v :: (print r1).2) := by
  cases t with
  | null => simp [push] at h
  | mk l r v0 ta0 s0 p0 rev0 asg0 =>
    rw [print]
    split
    · next h0 => rw [h] at h0; cases h0
    · next h0 => rw [h] at h0; cases h0; rfl

theorem traverse_eq_toList (t : Node α) : traverse t = toList t := by
  induction t using push_induction with
  | hnull => simp [traverse, print, toList]
  | hmk t l1 r1 v ta s p h ihl ihr =>
    rw [← toList_push t, h]
    simp only [traverse, print_of_push h, toList]
    simp only [traverse] at ihl ihr
    simp [ihl, ihr]

/-! ## Sizes and priorities under the tag operations -/

theorem size_assign (t : Node α) (x : α) : size (assign t x) = size t := by
  cases t <;> rfl

theorem size_reverse (t : Node α) : size (reverse t) = size t := by
  cases t <;> rfl

theorem size_push (t : Node α) : size (push t) = size t := by
  cases t <;> rfl

theorem sizeInv_assign (t : Node α) (x : α) : SizeInv (assign t x) ↔ SizeInv t := by
  cases t <;> simp [assign, SizeInv]

theorem sizeInv_reverse (t : Node α) : SizeInv (reverse t) ↔ SizeInv t := by
  cases t with
  | null => simp [reverse]
  | mk l r v ta s p rev asg =>
    simp only [reverse, SizeInv]
    constructor
    · rintro ⟨h1, h2, h3⟩; exact ⟨by omega, h3, h2⟩
    · rintro ⟨h1, h2, h3⟩; exact ⟨by omega, h3, h2⟩

theorem sizeInv_push (t : Node α) : SizeInv (push t) ↔ SizeInv t := by
  cases t with
  | null => simp [push]
  | mk l r v ta s p rev asg =>
    cases rev <;> cases asg <;>
      simp [push, SizeInv, sizeInv_assign, sizeInv_reverse, size_assign, size_reverse]

theorem prioLe_assign (q : Int) (t : Node α) (x : α) : PrioLe q (assign t x) ↔ PrioLe q t := by
  cases t <;> simp [assign, PrioLe]

theorem prioLe_reverse (q : Int) (t : Node α) : PrioLe q (reverse t) ↔ PrioLe q t := by
  cases t <;> simp [reverse, PrioLe]

theorem prioLe_push (q : Int) (t : Node α) : PrioLe q (push t) ↔ PrioLe q t := by
  cases t <;> simp [push, PrioLe]

theorem prioLe_update (q : Int) (t : Node α) : PrioLe q (update t) ↔ PrioLe q t := by
  cases t <;> simp [update, PrioLe]

theorem prioLe_mono {q q1 : Int} (hq : q ≤ q1) {t : Node α} (h : PrioLe q1 t) : PrioLe q t := by
  cases t with
  | null => trivial
  | mk l r v ta s p rev asg => simp only [PrioLe] at *; omega

theorem heap_assign (t : Node α) (x : α) : Heap (assign t x) ↔ Heap t := by
  cases t <;> simp [assign, Heap]

theorem heap_reverse (t : Node α) : Heap (reverse t) ↔ Heap t := by
  cases t with
  | null => simp [reverse]
  | mk l r v ta s p rev asg =>
    simp only [reverse, Heap]
    constructor
    · rintro ⟨h1, h2, h3, h4⟩; exact ⟨h2, h1, h4, h3⟩
    · rintro ⟨h1, h2, h3, h4⟩; exact ⟨h2, h1, h4, h3⟩

theorem heap_push (t : Node α) : Heap (push t) ↔ Heap t := by
  cases t with
  | null => simp [push]
  | mk l r v ta s p rev asg =>
    cases rev <;> cases asg <;>
      simp [push, Heap, heap_assign, heap_reverse, prioLe_assign, prioLe_reverse]

theorem heap_update (t : Node α) : Heap (update t) ↔ Heap t := by
  cases t <;> simp [update, Heap]

theorem sizeInv_size (t : Node α) (h : SizeInv t) : size t = (toList t).length := by
  induction t using push_induction with
  | hnull => rfl
  | hmk t l1 r1 v ta s p hp ihl ihr =>
    rw [← sizeInv_push, hp] at h
    rw [← toList_push t, ← size_push t, hp]
    obtain ⟨h1, h2, h3⟩ := h
    have hl := ihl h2
    have hr := ihr h3
    have e1 : size (Node.mk l1 r1 v ta s p false false) = s := rfl
    rw [e1]
    simp only [toList, Bool.false_eq_true, if_false, List.length_append, List.length_cons]
    omega

/-! ## Split by index -/

theorem split_of_push {t l1 r1 : Node α} {v ta : α} {s : Nat} {p : Int} {rev asg : Bool}
    (h : push t = .mk l1 r1 v ta s p rev asg) (i : Nat) :
    split t i =
      if i ≤ size l1 then
        ((split l1 i).1, update (.mk (split l1 i).2 r1 v ta s p rev asg))
      else
        (update (.mk l1 (split r1 (i - size l1 - 1)).1 v ta s p rev asg),
          (split r1 (i - size l1 - 1)).2) := by
  cases t with
  | null => simp [push] at h
  | mk l r v0 ta0 s0 p0 rev0 asg0 =>
    rw [split]
    split
    · next h0 => rw [h] at h0; cases h0
    · next h0 => rw [h] at h0; cases h0; rfl

theorem take_mid (xs ys : List α) (v : α) (i : Nat) (hi : xs.length < i) :
    (xs ++ v :: ys).take i = xs ++ v :: ys.take (i - xs.length - 1) := by
  rw [List.take_append_eq_append_take, List.take_of_length_le (by omega)]
  obtain ⟨k, hk⟩ : ∃ k, i - xs.length = k + 1 := ⟨i - xs.length - 1, by omega⟩
  rw [hk, List.take_succ_cons]
  simp

theorem drop_mid (xs ys : List α) (v : α) (i : Nat) (hi : xs.length < i) :
    (xs ++ v :: ys).drop i = ys.drop (i - xs.length - 1) := by
  rw [List.drop_append_eq_append_drop, List.drop_of_length_le (by omega)]
  obtain ⟨k, hk⟩ : ∃ k, i - xs.length = k + 1 := ⟨i - xs.length - 1, by omega⟩
  rw [hk, List.drop_succ_cons]
  simp

theorem split_spec (t : Node α) :
    SizeInv t → ∀ i, toList (split t i).1 = (toList t).take i
      ∧ toList (split t i).2 = (toList t).drop i
      ∧ SizeInv (split t i).1 ∧ SizeInv (split t i).2 := by
  induction t using push_induction with
  | hnull => intro _ i; simp [split, toList, SizeInv]
  | hmk t l1 r1 v ta s p hp ihl ihr =>
    intro hinv i
    rw [← sizeInv_push, hp] at hinv
    obtain ⟨h1, h2, h3⟩ := hinv
    have hl := sizeInv_size l1 h2
    rw [split_of_push hp, ← toList_push t, hp]
    have e : toList (Node.mk l1 r1 v ta s p false false) = toList l1 ++ v :: toList r1 := by
      simp [toList]
    rw [e]
    by_cases hi : i ≤ size l1
    · obtain ⟨a1, a2, a3, a4⟩ := ihl h2 i
      simp only [hi, if_true]
      refine ⟨?_, ?_, a3, ?_⟩
      · rw [a1, List.take_append_of_le_length (by omega)]
      · rw [toList_update]
        simp only [toList, Bool.false_eq_true, if_false]
        rw [a2, List.drop_append_of_le_length (by omega)]
      · simp only [update, SizeInv]
        exact ⟨by omega, a4, h3⟩
    · obtain ⟨a1, a2, a3, a4⟩ := ihr h3 (i - size l1 - 1)
      simp only [hi, if_false]
      refine ⟨?_, ?_, ?_, a4⟩
      · rw [toList_update]
        simp only [toList, Bool.false_eq_true, if_false]
        rw [a1, take_mid _ _ _ _ (by omega), hl]
      · rw [a2, drop_mid _ _ _ _ (by omega), hl]
      · simp only [update, SizeInv]
        exact ⟨by omega, h2, a3⟩

theorem split_heap (t : Node α) :
    Heap t → ∀ i, Heap (split t i).1 ∧ Heap (split t i).2
      ∧ ∀ q, PrioLe q t → PrioLe q (split t i).1 ∧ PrioLe q (split t i).2 := by
  induction t using push_induction with
  | hnull => intro _ i; simp [split, Heap, PrioLe]
  | hmk t l1 r1 v ta s p hp ihl ihr =>
    intro hheap i
    rw [← heap_push, hp] at hheap
    obtain ⟨h1, h2, h3, h4⟩ := hheap
    rw [split_of_push hp]
    by_cases hi : i ≤ size l1
    · obtain ⟨a1, a2, a3⟩ := ihl h3 i
      simp only [hi, if_true]
      refine ⟨a1, ?_, ?_⟩
      · simp only [update, Heap]
        exact ⟨(a3 p h1).2, h2, a2, h4⟩
      · intro q hq
        rw [← prioLe_push, hp] at hq
        simp only [PrioLe] at hq
        exact ⟨(a3 q (prioLe_mono hq h1)).1, by simpa [update, PrioLe] using hq⟩
    · obtain ⟨a1, a2, a3⟩ := ihr h4 (i - size l1 - 1)
      simp only [hi, if_false]
      refine ⟨?_, a2, ?_⟩
      · simp only [update, Heap]
        exact ⟨h1, (a3 p h2).1, h3, a1⟩
      · intro q hq
        rw [← prioLe_push, hp] at hq
        simp only [PrioLe] at hq
        exact ⟨by simpa [update, PrioLe] using hq, (a3 q (prioLe_mono hq h2)).2⟩

/-! ## Merge -/

theorem merge_null_left (b : Node α) : merge .null b = b := by
  rw [merge]

theorem merge_null_right (a : Node α) : merge a .null = a := by
  cases a <;> rw [merge]

theorem merge_of_push {a b ll lr rl rr : Node α} {lv lta rv rta : α} {ls rs : Nat}
    {lp rp : Int} {lrev lasg rrev rasg : Bool}
    (ha : push a = .mk ll lr lv lta ls lp lrev lasg)
    (hb : push b = .mk rl rr rv rta rs rp rrev rasg) :
    merge a b =
      if lp < rp then update (.mk ll (merge lr (push b)) lv lta ls lp lrev lasg)
      else update (.mk (merge (push a) rl) rr rv rta rs rp rrev rasg) := by
  cases a with
  | null => simp [push] at ha
  | mk l r v0 ta0 s0 p0 rev0 asg0 =>
    cases b with
    | null => simp [push] at hb
    | mk l2 r2 v2 ta2 s2 p2 rev2 asg2 =>
      rw [merge]
      split
      · next h1 h2 =>
        rw [ha] at h1; rw [hb] at h2
        cases h1; cases h2
        rw [ha, hb]
      · next hne =>
        exact absurd hb (hne _ _ _ _ _ _ _ _ _ _ _ _ _ _ _ _ ha)

theorem merge_induction {P : Node α → Node α → Prop}
    (hleft : ∀ b, P .null b) (hright : ∀ a, P a .null)
    (hmk : ∀ (a b ll lr rl rr : Node α) (lv lta rv rta : α) (ls rs : Nat) (lp rp : Int),
      push a = .mk ll lr lv lta ls lp false false →
      push b = .mk rl rr rv rta rs rp false false →
      (lp < rp → P lr (push b)) → (¬ lp < rp → P (push a) rl) → P a b) :
    ∀ a b, P a b := by
  intro a b
  generalize hn : nodes a + nodes b = n
  induction n using Nat.strong_induction_on generalizing a b with
  | _ n ih =>
    subst hn
    cases a with
    | null => exact hleft b
    | mk l r v ta s p rev asg =>
      cases b with
      | null => exact hright _
      | mk l2 r2 v2 ta2 s2 p2 rev2 asg2 =>
        obtain ⟨ll, lr, ha⟩ := push_mk l r v ta s p rev asg
        obtain ⟨rl, rr, hb⟩ := push_mk l2 r2 v2 ta2 s2 p2 rev2 asg2
        have h1 := nodes_push_right ha
        have h2 := nodes_push_left hb
        refine hmk _ _ ll lr rl rr v ta v2 ta2 s s2 p p2 ha hb (fun _ => ?_) (fun _ => ?_)
        · exact ih _ (by rw [nodes_push]; omega) _ _ rfl
        · exact ih _ (by rw [nodes_push]; omega) _ _ rfl

theorem merge_toList (a b : Node α) : toList (merge a b) = toList a ++ toList b := by
  induction a, b using merge_induction with
  | hleft b => simp [merge_null_left, toList]
  | hright a => simp [merge_null_right, toList]
  | hmk a b ll lr rl rr lv lta rv rta ls rs lp rp ha hb ih1 ih2 =>
    rw [merge_of_push ha hb]
    by_cases hlt : lp < rp
    · simp only [hlt, if_true, toList_update]
      have e := ih1 hlt
      rw [toList_push] at e
      rw [← toList_push a, ha]
      simp [toList, e]
    · simp only [hlt, if_false, toList_update]
      have e := ih2 hlt
      rw [toList_push] at e
      rw [← toList_push b, hb]
      simp [toList, e]

theorem merge_sizeInv (a b : Node α) : SizeInv a → SizeInv b → SizeInv (merge a b) := by
  induction a, b using merge_induction with
  | hleft b => intro _ h; simpa [merge_null_left] using h
  | hright a => intro h _; simpa [merge_null_right] using h
  | hmk a b ll lr rl rr lv lta rv rta ls rs lp rp ha hb ih1 ih2 =>
    intro h1 h2
    rw [merge_of_push ha hb]
    have h1p := (sizeInv_push a).2 h1
    have h2p := (sizeInv_push b).2 h2
    by_cases hlt : lp < rp
    · simp only [hlt, if_true, update, SizeInv]
      rw [ha] at h1p
      exact ⟨by omega, h1p.2.1, ih1 hlt h1p.2.2 h2p⟩
    · simp only [hlt, if_false, update, SizeInv]
      rw [hb] at h2p
      exact ⟨by omega, ih2 hlt h1p h2p.2.1, h2p.2.2⟩

theorem merge_heap (a b : Node α) :
    Heap a → Heap b → Heap (merge a b)
      ∧ ∀ q, PrioLe q a → PrioLe q b → PrioLe q (merge a b) := by
  induction a, b using merge_induction with
  | hleft b => intro _ h; simp only [merge_null_left]; exact ⟨h, fun _ _ hq => hq⟩
  | hright a => intro h _; simp only [merge_null_right]; exact ⟨h, fun _ hq _ => hq⟩
  | hmk a b ll lr rl rr lv lta rv rta ls rs lp rp ha hb ih1 ih2 =>
    intro h1 h2
    rw [merge_of_push ha hb]
    have h1p := (heap_push a).2 h1
    have h2p := (heap_push b).2 h2
    by_cases hlt : lp < rp
    · simp only [hlt, if_true, update]
      have h1q := h1p
      rw [ha] at h1q
      obtain ⟨c1, c2, c3, c4⟩ := h1q
      obtain ⟨d1, d2⟩ := ih1 hlt c4 h2p
      refine ⟨⟨c1, d2 lp c2 ?_, c3, d1⟩, ?_⟩
      · rw [hb]; simp only [PrioLe]; omega
      · intro q hq _
        rw [← prioLe_push, ha] at hq
        exact hq
    · simp only [hlt, if_false, update]
      have h2q := h2p
      rw [hb] at h2q
      obtain ⟨c1, c2, c3, c4⟩ := h2q
      obtain ⟨d1, d2⟩ := ih2 hlt h1p c3
      refine ⟨⟨d2 rp ?_ c1, c2, d1, c4⟩, ?_⟩
      · rw [ha]; simp only [PrioLe]; omega
      · intro q _ hq
        rw [← prioLe_push, hb] at hq
        exact hq

theorem split_append (t : Node α) :
    ∀ i, toList (split t i).1 ++ toList (split t i).2 = toList t := by
  induction t using push_induction with
  | hnull => intro i; simp [split, toList]
  | hmk t l1 r1 v ta s p hp ihl ihr =>
    intro i
    rw [split_of_push hp, ← toList_push t, hp]
    by_cases hi : i ≤ size l1
    · simp only [hi, if_true, toList_update]
      simp only [toList, Bool.false_eq_true, if_false]
      rw [← List.append_assoc, ihl i]
    · simp only [hi, if_false, toList_update]
      simp only [toList, Bool.false_eq_true, if_false]
      rw [List.append_assoc, List.cons_append, ihr]

/-! ## Point read and point write -/

theorem at_of_push {t l1 r1 : Node α} {v ta : α} {s : Nat} {p : Int} {rev asg : Bool}
    (h : push t = .mk l1 r1 v ta s p rev asg) (i : Nat) :
    at_ t i =
      if i ≥ s then (t, .error .outOfRange)
      else if size l1 = i then (.mk l1 r1 v ta s p rev asg, .ok v)
      else if i ≤ size l1 then (.mk (at_ l1 i).1 r1 v ta s p rev asg, (at_ l1 i).2)
      else (.mk l1 (at_ r1 (i - size l1 - 1)).1 v ta s p rev asg,
        (at_ r1 (i - size l1 - 1)).2) := by
  cases t with
  | null => simp [push] at h
  | mk l r v0 ta0 s0 p0 rev0 asg0 =>
    have hs : s0 = s := by
      have := congrArg size h
      rw [size_push] at this
      exact this
    subst hs
    rw [at_]
    by_cases hi : i ≥ s0
    · simp only [hi, if_true]
    · simp only [hi, if_false]
      split
      · next h0 => rw [h] at h0; cases h0
      · next h0 => rw [h] at h0; cases h0; rfl

theorem at_null (i : Nat) : at_ (.null : Node α) i = (.null, .error .outOfRange) := by
  rw [at_]

theorem at_spec (t : Node α) :
    SizeInv t → ∀ i, (size t ≤ i → (at_ t i).2 = .error .outOfRange)
      ∧ (i < size t → ∃ x, (at_ t i).2 = .ok x ∧ (toList t)[i]? = some x) := by
  induction t using push_induction with
  | hnull => intro _ i; simp [at_null, size]
  | hmk t l1 r1 v ta s p hp ihl ihr =>
    intro hinv i
    rw [← sizeInv_push, hp] at hinv
    obtain ⟨h1, h2, h3⟩ := hinv
    have hs : size t = s := by rw [← size_push, hp]; rfl
    have hl := sizeInv_size l1 h2
    have hr := sizeInv_size r1 h3
    rw [at_of_push hp, hs, ← toList_push t, hp]
    have e : toList (Node.mk l1 r1 v ta s p false false) = toList l1 ++ v :: toList r1 := by
      simp [toList]
    rw [e]
    refine ⟨fun hge => by simp [hge], fun hlt => ?_⟩
    have hnge : ¬ i ≥ s := by omega
    simp only [hnge, if_false]
    by_cases heq : size l1 = i
    · simp only [heq, if_true]
      refine ⟨v, rfl, ?_⟩
      rw [List.getElem?_append_right (by omega)]
      simp [← hl, heq]
    · simp only [heq, if_false]
      by_cases hle : i ≤ size l1
      · simp only [hle, if_true]
        obtain ⟨x, hx1, hx2⟩ := (ihl h2 i).2 (by omega)
        refine ⟨x, hx1, ?_⟩
        rw [List.getElem?_append_left (by omega)]
        exact hx2
      · simp only [hle, if_false]
        obtain ⟨x, hx1, hx2⟩ := (ihr h3 (i - size l1 - 1)).2 (by omega)
        refine ⟨x, hx1, ?_⟩
        rw [List.getElem?_append_right (by omega)]
        obtain ⟨k, hk⟩ : ∃ k, i - (toList l1).length = k + 1 :=
          ⟨i - (toList l1).length - 1, by omega⟩
        rw [hk, List.getElem?_cons_succ, ← hx2]
        congr 1
        omega

theorem replace_of_push {t l1 r1 : Node α} {v ta : α} {s : Nat} {p : Int} {rev asg : Bool}
    (h : push t = .mk l1 r1 v ta s p rev asg) (x : α) (i : Nat) :
    replace t x i =
      if size l1 = i then update (.mk l1 r1 x ta s p rev asg)
      else if i ≤ size l1 then update (.mk (replace l1 x i) r1 v ta s p rev asg)
      else update (.mk l1 (replace r1 x (i - size l1 - 1)) v ta s p rev asg) := by
  cases t with
  | null => simp [push] at h
  | mk l r v0 ta0 s0 p0 rev0 asg0 =>
    rw [replace]
    split
    · next h0 => rw [h] at h0; cases h0
    · next h0 => rw [h] at h0; cases h0; rfl

theorem replace_heap (t : Node α) (x : α) :
    Heap t → ∀ i, Heap (replace t x i) ∧ ∀ q, PrioLe q t → PrioLe q (replace t x i) := by
  induction t using push_induction with
  | hnull => intro _ i; simp [replace, Heap, PrioLe]
  | hmk t l1 r1 v ta s p hp ihl ihr =>
    intro hheap i
    rw [← heap_push, hp] at hheap
    obtain ⟨h1, h2, h3, h4⟩ := hheap
    have hq : ∀ q, PrioLe q t → q ≤ p := by
      intro q hq
      rw [← prioLe_push, hp] at hq
      exact hq
    rw [replace_of_push hp]
    by_cases heq : size l1 = i
    · simp only [heq, if_true, update]
      exact ⟨⟨h1, h2, h3, h4⟩, hq⟩
    · simp only [heq, if_false]
      by_cases hle : i ≤ size l1
      · simp only [hle, if_true, update]
        obtain ⟨a1, a2⟩ := ihl h3 i
        exact ⟨⟨a2 p h1, h2, a1, h4⟩, hq⟩
      · simp only [hle, if_false, update]
        obtain ⟨a1, a2⟩ := ihr h4 (i - size l1 - 1)
        exact ⟨⟨h1, a2 p h2, h3, a1⟩, hq⟩

theorem replace_sizeInv (t : Node α) (x : α) :
    SizeInv t → ∀ i, SizeInv (replace t x i) ∧ size (replace t x i) = size t := by
  induction t using push_induction with
  | hnull => intro _ i; simp [replace, SizeInv]
  | hmk t l1 r1 v ta s p hp ihl ihr =>
    intro hinv i
    rw [← sizeInv_push, hp] at hinv
    obtain ⟨h1, h2, h3⟩ := hinv
    have hs : size t = s := by rw [← size_push, hp]; rfl
    rw [replace_of_push hp, hs]
    by_cases heq : size l1 = i
    · rw [if_pos heq]
      refine ⟨⟨?_, h2, h3⟩, ?_⟩
      · show size l1 + size r1 + 1 = 1 + size l1 + size r1
        omega
      · show size l1 + size r1 + 1 = s
        omega
    · rw [if_neg heq]
      by_cases hle : i ≤ size l1
      · rw [if_pos hle]
        obtain ⟨a1, a2⟩ := ihl h2 i
        refine ⟨⟨?_, a1, h3⟩, ?_⟩
        · show size (replace l1 x i) + size r1 + 1 = 1 + size (replace l1 x i) + size r1
          omega
        · show size (replace l1 x i) + size r1 + 1 = s
          omega
      · rw [if_neg hle]
        obtain ⟨a1, a2⟩ := ihr h3 (i - size l1 - 1)
        refine ⟨⟨?_, h2, a1⟩, ?_⟩
        · show size l1 + size (replace r1 x (i - size l1 - 1)) + 1
            = 1 + size l1 + size (replace r1 x (i - size l1 - 1))
          omega
        · show size l1 + size (replace r1 x (i - size l1 - 1)) + 1 = s
          omega

/-! ## Insert, erase and the range combinator -/

theorem newNode_toList [Inhabited α] (v : α) (prio : Int) : toList (newNode v prio) = [v] := by
  simp [newNode, toList]

theorem newNode_sizeInv [Inhabited α] (v : α) (prio : Int) : SizeInv (newNode v prio) := by
  simp [newNode, SizeInv, size]

theorem newNode_heap [Inhabited α] (v : α) (prio : Int) : Heap (newNode v prio) := by
  simp [newNode, Heap, PrioLe]

theorem insert_of_size_pos [Inhabited α] (root : Node α) (v : α) (i : Nat) (prio : Int)
    (hne : root ≠ .null) (hs : size root ≠ 0) :
    insert root v i prio
      = some (merge (merge (split root i).1 (newNode v prio)) (split root i).2) := by
  cases root with
  | null => exact absurd rfl hne
  | mk l r v0 ta s p rev asg =>
    have hs0 : s ≠ 0 := hs
    simp [insert, hs0]

theorem sizeInv_size_pos {root : Node α} (hne : root ≠ .null) (h : SizeInv root) :
    size root ≠ 0 := by
  cases root with
  | null => exact absurd rfl hne
  | mk l r v0 ta s p rev asg =>
    have := h.1
    show s ≠ 0
    omega

theorem insert_toList [Inhabited α] (root : Node α) (v : α) (i : Nat) (prio : Int)
    (hne : root ≠ .null) (h : SizeInv root) :
    ∃ t, insert root v i prio = some t
      ∧ toList t = (toList root).take i ++ v :: (toList root).drop i := by
  refine ⟨_, insert_of_size_pos root v i prio hne (sizeInv_size_pos hne h), ?_⟩
  obtain ⟨a1, a2, -, -⟩ := split_spec root h i
  rw [merge_toList, merge_toList, a1, a2, newNode_toList]
  simp

theorem erase_toList (root : Node α) (i : Nat) (h : SizeInv root) :
    toList (erase root i) = (toList root).take i ++ (toList root).drop (i + 1) := by
  obtain ⟨a1, a2, -, a4⟩ := split_spec root h i
  obtain ⟨-, b2, -, -⟩ := split_spec _ a4 1
  simp only [erase]
  rw [merge_toList, a1, b2, a2, List.drop_drop]

theorem apply_in_range {ρ : Type} (root : Node α) (l r : Nat)
    (f : Slot → Parts α → Parts α × ρ) (hl : l < size root) (hr : r < size root) :
    apply root l r f =
      (merge (merge
          (f (rootSlot root l (rangeLength l r))
            ⟨(split root l).1, (split (split root l).2 (rangeLength l r)).1,
              (split (split root l).2 (rangeLength l r)).2⟩).1.first
          (f (rootSlot root l (rangeLength l r))
            ⟨(split root l).1, (split (split root l).2 (rangeLength l r)).1,
              (split (split root l).2 (rangeLength l r)).2⟩).1.second)
        (f (rootSlot root l (rangeLength l r))
            ⟨(split root l).1, (split (split root l).2 (rangeLength l r)).1,
              (split (split root l).2 (rangeLength l r)).2⟩).1.third,
        .ok (f (rootSlot root l (rangeLength l r))
            ⟨(split root l).1, (split (split root l).2 (rangeLength l r)).1,
              (split (split root l).2 (rangeLength l r)).2⟩).2) := by
  have h : ¬ (l ≥ size root ∨ r ≥ size root) := by omega
  simp only [apply, h, if_false]

theorem apply_out_of_range {ρ : Type} (root : Node α) (l r : Nat)
    (f : Slot → Parts α → Parts α × ρ) (h : l ≥ size root ∨ r ≥ size root) :
    apply root l r f = (root, .error .outOfRange) := by
  simp only [apply, h, if_true]

theorem push_clean (l r : Node α) (v ta : α) (s : Nat) (p : Int) :
    push (.mk l r v ta s p false false) = .mk l r v ta s p false false := by
  simp [push]

/-- The slot computed by `rootSlot` does hold the node `root` pointed to: the
tree in that slot has the value, `toAssign` and priority of the pushed `root`
on top. -/
theorem rootSlot_holds_root {root l1 r1 : Node α} {v ta : α} {s : Nat} {p : Int}
    (h : push root = .mk l1 r1 v ta s p false false) (l k : Nat) :
    match rootSlot root l k with
    | .first => ∃ a b n, (split root l).1 = .mk a b v ta n p false false
    | .second => ∃ a b n, (split (split root l).2 k).1 = .mk a b v ta n p false false
    | .third => ∃ a b n, (split (split root l).2 k).2 = .mk a b v ta n p false false := by
  rw [split_of_push h]
  simp only [rootSlot, h]
  by_cases hl : l ≤ size l1
  · simp only [hl, if_true, update]
    rw [split_of_push (push_clean _ _ _ _ _ _)]
    by_cases hk : k ≤ size (split l1 l).2
    · simp only [hk, if_true, update]
      exact ⟨_, _, _, rfl⟩
    · simp only [hk, if_false, update]
      exact ⟨_, _, _, rfl⟩
  · simp only [hl, if_false, update]
    exact ⟨_, _, _, rfl⟩

theorem rangeLength_of_le {l r : Nat} (hlr : l ≤ r) (hr : r + 1 < 2 ^ 64) :
    rangeLength l r = r - l + 1 := by
  unfold rangeLength
  have e : r + 2 ^ 64 - l + 1 = (r - l + 1) + 2 ^ 64 := by omega
  rw [e, Nat.add_mod_right, Nat.mod_eq_of_lt (by omega)]

theorem assignRange_toList (root : Node α) (v : α) (l r : Nat) (h : SizeInv root)
    (hsz : size root < 2 ^ 64) (hlr : l ≤ r) (hr : r < size root) :
    (assignRange root v l r).2 = .ok ()
      ∧ toList (assignRange root v l r).1
        = (toList root).take l ++ List.replicate (r - l + 1) v ++ (toList root).drop (r + 1) := by
  have hk := rangeLength_of_le hlr (by omega)
  have hlen := sizeInv_size root h
  obtain ⟨a1, a2, -, a4⟩ := split_spec root h l
  obtain ⟨b1, b2, -, -⟩ := split_spec _ a4 (r - l + 1)
  simp only [assignRange, apply_in_range root l r _ (by omega) hr, assignLambda, hk]
  refine ⟨rfl, ?_⟩
  rw [merge_toList, merge_toList, toList_assign, a1, b1, b2, a2, List.drop_drop,
    List.map_const']
  congr 2
  · congr 1
    simp only [List.length_take, List.length_drop]
    exact inf_eq_left.2 (by omega)
  · omega

/-- What `reverse(root, l, r)` does to the sequence, by the slot the old top
node ends up in: the part in that slot is mirrored, the other two are kept. -/
theorem reverseRange_toList (root : Node α) (l r : Nat) (h : SizeInv root)
    (hsz : size root < 2 ^ 64) (hlr : l ≤ r) (hr : r < size root) :
    (reverseRange root l r).2 = .ok ()
      ∧ toList (reverseRange root l r).1 =
        match rootSlot root l (r - l + 1) with
        | .first => ((toList root).take l).reverse
            ++ ((toList root).drop l).take (r - l + 1) ++ (toList root).drop (r + 1)
        | .second => (toList root).take l
            ++ (((toList root).drop l).take (r - l + 1)).reverse ++ (toList root).drop (r + 1)
        | .third => (toList root).take l
            ++ ((toList root).drop l).take (r - l + 1) ++ ((toList root).drop (r + 1)).reverse := by
  have hk := rangeLength_of_le hlr (by omega)
  obtain ⟨a1, a2, -, a4⟩ := split_spec root h l
  obtain ⟨b1, b2, -, -⟩ := split_spec _ a4 (r - l + 1)
  have e : l + (r - l + 1) = r + 1 := by omega
  simp only [reverseRange, apply_in_range root l r _ (by omega) hr, hk]
  refine ⟨rfl, ?_⟩
  cases rootSlot root l (r - l + 1) <;>
    simp only [reverseLambda, merge_toList, toList_reverse, a1, b1, b2, a2, List.drop_drop, e]

theorem getElem?_take_replicate_drop (xs : List α) (v : α) (l r i : Nat) (hlr : l ≤ r)
    (hr : r < xs.length) (hi : i < xs.length) :
    (xs.take l ++ List.replicate (r - l + 1) v ++ xs.drop (r + 1))[i]?
      = if l ≤ i ∧ i ≤ r then some v else xs[i]? := by
  by_cases h1 : i < l
  · have hn : ¬ (l ≤ i ∧ i ≤ r) := by omega
    rw [if_neg hn, List.append_assoc, List.getElem?_append_left (by simp; omega)]
    simp [List.getElem?_take, h1]
  · by_cases h2 : i ≤ r
    · have hy : l ≤ i ∧ i ≤ r := by omega
      rw [if_pos hy, List.getElem?_append_left (by simp; omega),
        List.getElem?_append_right (by simp; omega)]
      rw [List.getElem?_replicate]
      simp
      omega
    · have hn : ¬ (l ≤ i ∧ i ≤ r) := by omega
      rw [if_neg hn, List.getElem?_append_right (by simp; omega)]
      simp
      congr 1
      omega

theorem apply_invariant {ρ : Type} (I : Node α → Prop)
    (hsplit : ∀ t i, I t → I (split t i).1 ∧ I (split t i).2)
    (hmerge : ∀ a b, I a → I b → I (merge a b))
    (f : Slot → Parts α → Parts α × ρ)
    (hf : ∀ slot parts, I parts.first → I parts.second → I parts.third →
      I (f slot parts).1.first ∧ I (f slot parts).1.second ∧ I (f slot parts).1.third)
    (root : Node α) (l r : Nat) (h : I root) : I (apply root l r f).1 := by
  by_cases hr : l ≥ size root ∨ r ≥ size root
  · rw [apply_out_of_range root l r f hr]
    exact h
  · rw [apply_in_range root l r f (by omega) (by omega)]
    obtain ⟨a1, a2⟩ := hsplit root l h
    obtain ⟨b1, b2⟩ := hsplit _ (rangeLength l r) a2
    obtain ⟨c1, c2, c3⟩ := hf (rootSlot root l (rangeLength l r)) ⟨_, _, _⟩ a1 b1 b2
    exact hmerge _ _ (hmerge _ _ c1 c2) c3

theorem reverseLambda_invariant (I : Node α → Prop) (hI : ∀ t, I t → I (reverse t))
    (slot : Slot) (parts : Parts α)
    (h1 : I parts.first) (h2 : I parts.second) (h3 : I parts.third) :
    I (reverseLambda slot parts).1.first ∧ I (reverseLambda slot parts).1.second
      ∧ I (reverseLambda slot parts).1.third := by
  cases slot
  · exact ⟨hI _ h1, h2, h3⟩
  · exact ⟨h1, hI _ h2, h3⟩
  · exact ⟨h1, h2, hI _ h3⟩

theorem reverseRange_invariant (I : Node α → Prop)
    (hsplit : ∀ t i, I t → I (split t i).1 ∧ I (split t i).2)
    (hmerge : ∀ a b, I a → I b → I (merge a b)) (hI : ∀ t, I t → I (reverse t))
    (root : Node α) (l r : Nat) (h : I root) : I (reverseRange root l r).1 :=
  apply_invariant I hsplit hmerge reverseLambda
    (fun slot parts => reverseLambda_invariant I hI slot parts) root l r h

theorem assignRange_invariant (I : Node α → Prop)
    (hsplit : ∀ t i, I t → I (split t i).1 ∧ I (split t i).2)
    (hmerge : ∀ a b, I a → I b → I (merge a b)) (hI : ∀ t x, I t → I (assign t x))
    (root : Node α) (v : α) (l r : Nat) (h : I root) : I (assignRange root v l r).1 :=
  apply_invariant I hsplit hmerge (assignLambda v)
    (fun _ _ h1 h2 h3 => ⟨h1, hI _ v h2, h3⟩) root l r h

theorem erase_invariant (I : Node α → Prop)
    (hsplit : ∀ t i, I t → I (split t i).1 ∧ I (split t i).2)
    (hmerge : ∀ a b, I a → I b → I (merge a b))
    (root : Node α) (i : Nat) (h : I root) : I (erase root i) := by
  obtain ⟨a1, a2⟩ := hsplit root i h
  obtain ⟨-, b2⟩ := hsplit _ 1 a2
  exact hmerge _ _ a1 b2

theorem insert_invariant [Inhabited α] (I : Node α → Prop)
    (hsplit : ∀ t i, I t → I (split t i).1 ∧ I (split t i).2)
    (hmerge : ∀ a b, I a → I b → I (merge a b)) (hnew : ∀ v prio, I (newNode v prio))
    (root : Node α) (v : α) (i : Nat) (prio : Int) (h : I root) :
    ∀ t, insert root v i prio = some t → I t := by
  intro t ht
  cases root with
  | null => simp [insert] at ht
  | mk l r v0 ta s p rev asg =>
    simp only [insert] at ht
    obtain ⟨a1, a2⟩ := hsplit _ i h
    by_cases hs : s = 0
    · rw [if_pos hs] at ht
      cases ht
      exact hnew v prio
    · rw [if_neg hs] at ht
      cases ht
      exact hmerge _ _ (hmerge _ _ a1 (hnew v prio)) a2

theorem insert_isSome [Inhabited α] (root : Node α) (v : α) (i : Nat) (prio : Int)
    (hne : root ≠ .null) : (insert root v i prio).isSome = true := by
  cases root with
  | null => exact absurd rfl hne
  | mk l r v0 ta s p rev asg =>
    simp only [insert]
    by_cases hs : s = 0
    · rw [if_pos hs]; rfl
    · rw [if_neg hs]; rfl

/-! ## The claims -/

/-- C1: for every tree with the size invariant (pending tags allowed) and every
index, `split` returns `(left, right)` where the traversal of `left` is the
first `index` elements of the traversal of `root` (all of them when
`index >= size(root)`) and the traversal of `right` is the rest, in order. -/
theorem split_partitions_at_index (root : Node α) (index : Nat) (h : SizeInv root) :
    traverse (split root index).1 = (traverse root).take index
      ∧ traverse (split root index).2 = (traverse root).drop index
      ∧ (size root ≤ index → traverse (split root index).1 = traverse root
          ∧ traverse (split root index).2 = []) := by
  obtain ⟨a1, a2, -, -⟩ := split_spec root h index
  have hlen := sizeInv_size root h
  simp only [traverse_eq_toList]
  refine ⟨a1, a2, fun hge => ?_⟩
  rw [a1, a2, List.take_of_length_le (by omega), List.drop_of_length_le (by omega)]
  exact ⟨rfl, rfl⟩

theorem split_partitions_at_index_witness :
    SizeInv tagged4 ∧ traverse (split tagged4 1).1 = (traverse tagged4).take 1
      ∧ traverse (split tagged4 1).2 = (traverse tagged4).drop 1
      ∧ (size tagged4 ≤ 1 → traverse (split tagged4 1).1 = traverse tagged4
          ∧ traverse (split tagged4 1).2 = []) :=
  ⟨by decide, split_partitions_at_index tagged4 1 (by decide)⟩

/-- C2: for all trees `left` and `right` (pending tags allowed) the traversal of
`merge(left, right)` is the traversal of `left` followed by that of `right`; and
merging the two halves of `split(root, index)` gives back the traversal of
`root`. -/
theorem merge_concatenates :
    (∀ left right : Node α, traverse (merge left right) = traverse left ++ traverse right)
      ∧ (∀ (root : Node α) (index : Nat),
          traverse (merge (split root index).1 (split root index).2) = traverse root) := by
  refine ⟨fun left right => ?_, fun root index => ?_⟩
  · simp only [traverse_eq_toList, merge_toList]
  · simp only [traverse_eq_toList, merge_toList, split_append]

/-- Positional insert on a root that is not `nullptr`: with the size invariant
the call returns, and the new traversal is the old one with `v` put at position
`i` (behind the last element when `i` exceeds the size). -/
theorem insert_at_index [Inhabited α] (root : Node α) (v : α) (i : Nat) (prio : Int)
    (hne : root ≠ .null) (h : SizeInv root) :
    ∃ t, insert root v i prio = some t
      ∧ traverse t = (traverse root).take i ++ v :: (traverse root).drop i := by
  simp only [traverse_eq_toList]
  exact insert_toList root v i prio hne h

/-- Positional insert on the size-0 placeholder `Node()`: the placeholder is
replaced by the new leaf. -/
theorem insert_into_placeholder [Inhabited α] (v : α) (i : Nat) (prio : Int) :
    insert (emptyNode : Node α) v i prio = some (newNode v prio)
      ∧ traverse (newNode v prio) = [v] := by
  refine ⟨by simp [insert, emptyNode], ?_⟩
  rw [traverse_eq_toList, newNode_toList]

/-- C3 (at the failing input): erasing the only element of a one-element tree
leaves the `nullptr` root, which satisfies the size invariant and has size 0,
and `insert` at index 0 on it dereferences `nullptr`: no tree with traversal
`[7]` is produced. -/
theorem insert_null_root_undefined :
    erase (newNode (5 : Int) 1) 0 = .null
      ∧ SizeInv (.null : Node Int)
      ∧ size (.null : Node Int) = 0
      ∧ insert (.null : Node Int) 7 0 3 = none := by
  refine ⟨?_, trivial, rfl, rfl⟩
  simp [erase, newNode, split, merge, push, size, update]

/-- C4: for every tree with the size invariant and every `i < size`, the
traversal after `erase(root, i)` is the traversal before with the element at
position `i` removed and the others kept in order. -/
theorem erase_removes_index (root : Node α) (i : Nat) (h : SizeInv root)
    (hi : i < size root) :
    traverse (erase root i) = (traverse root).eraseIdx i
      ∧ (traverse (erase root i)).length + 1 = (traverse root).length := by
  have hlen := sizeInv_size root h
  simp only [traverse_eq_toList]
  rw [erase_toList root i h, List.eraseIdx_eq_take_drop_succ]
  refine ⟨rfl, ?_⟩
  simp only [List.length_append, List.length_take, List.length_drop]
  omega

theorem erase_removes_index_witness :
    SizeInv tagged4 ∧ 2 < size tagged4
      ∧ traverse (erase tagged4 2) = (traverse tagged4).eraseIdx 2
      ∧ (traverse (erase tagged4 2)).length + 1 = (traverse tagged4).length :=
  ⟨by decide, by decide, erase_removes_index tagged4 2 (by decide) (by decide)⟩

/-- C5: for every tree with the size invariant (pending tags allowed) and every
index, `at(root, index)` throws out-of-range exactly when
`index >= size(root)`, and otherwise returns the element at position `index` of
the traversal of `root`. -/
theorem at_reads_or_fails (root : Node α) (index : Nat) (h : SizeInv root) :
    ((at_ root index).2 = .error .outOfRange ↔ size root ≤ index)
      ∧ (index < size root →
          ∃ x, (at_ root index).2 = .ok x ∧ (traverse root)[index]? = some x) := by
  obtain ⟨a1, a2⟩ := at_spec root h index
  simp only [traverse_eq_toList]
  refine ⟨⟨fun herr => ?_, a1⟩, a2⟩
  by_contra hlt
  obtain ⟨x, hx, -⟩ := a2 (by omega)
  rw [hx] at herr
  cases herr

theorem at_reads_or_fails_witness :
    SizeInv tagged4 ∧ ((at_ tagged4 3).2 = .error .outOfRange ↔ size tagged4 ≤ 3)
      ∧ (3 < size tagged4 →
          ∃ x, (at_ tagged4 3).2 = .ok x ∧ (traverse tagged4)[3]? = some x) :=
  ⟨by decide, at_reads_or_fails tagged4 3 (by decide)⟩

/-- C6 (at the failing input): `balanced3` satisfies the size and heap
invariants and traverses to `[10, 20, 30]`; `reverse(root, 0, 0)` succeeds and
leaves `[10, 30, 20]`, not `[10, 20, 30]`: the reverse tag went to the old top
node (now on top of `third`), not to `second`. -/
theorem reverseRange_reverses_wrong_part :
    SizeInv balanced3 ∧ Heap balanced3
      ∧ traverse balanced3 = [10, 20, 30]
      ∧ (reverseRange balanced3 0 0).2 = .ok ()
      ∧ rootSlot balanced3 0 (rangeLength 0 0) = .third
      ∧ traverse (reverseRange balanced3 0 0).1 = [10, 30, 20] := by
  refine ⟨by decide, by decide, ?_, ?_, ?_, ?_⟩
  · simp [traverse, print, push, balanced3]
  · simp [reverseRange, apply, balanced3, size, Except.map]
  · simp [rootSlot, rangeLength, balanced3, push, split, size, update]
  · simp [traverse, print, push, balanced3, reverse, assign, reverseRange, apply,
      reverseLambda, rootSlot, rangeLength, split, merge, size, update]

/-- C7: for every tree with the size invariant (its stored size a `uint64_t`),
every value `v` and all `l <= r < size`, `assignRange(root, v, l, r)` succeeds
and the traversal afterwards has the same length, `v` at every position of
`[l, r]` and the original element at every other position. -/
theorem assignRange_overwrites_range (root : Node α) (v : α) (l r : Nat)
    (h : SizeInv root) (hsz : size root < 2 ^ 64) (hlr : l ≤ r) (hr : r < size root) :
    (assignRange root v l r).2 = .ok ()
      ∧ (traverse (assignRange root v l r).1).length = (traverse root).length
      ∧ ∀ i, i < size root →
          (traverse (assignRange root v l r).1)[i]?
            = if l ≤ i ∧ i ≤ r then some v else (traverse root)[i]? := by
  obtain ⟨a1, a2⟩ := assignRange_toList root v l r h hsz hlr hr
  have hlen := sizeInv_size root h
  simp only [traverse_eq_toList]
  refine ⟨a1, ?_, fun i hi => ?_⟩
  · rw [a2]
    simp only [List.length_append, List.length_take, List.length_drop, List.length_replicate]
    omega
  · rw [a2]
    exact getElem?_take_replicate_drop _ v l r i hlr (by omega) (by omega)

theorem assignRange_overwrites_range_witness :
    SizeInv tagged4 ∧ size tagged4 < 2 ^ 64 ∧ 1 ≤ 2 ∧ 2 < size tagged4
      ∧ (assignRange tagged4 99 1 2).2 = .ok ()
      ∧ (traverse (assignRange tagged4 99 1 2).1).length = (traverse tagged4).length
      ∧ ∀ i, i < size tagged4 →
          (traverse (assignRange tagged4 99 1 2).1)[i]?
            = if 1 ≤ i ∧ i ≤ 2 then some 99 else (traverse tagged4)[i]? :=
  ⟨by decide, by decide, by decide, by decide,
    assignRange_overwrites_range tagged4 99 1 2 (by decide) (by decide) (by decide)
      (by decide)⟩

/-- C8: for every tree and all `l`, `r`, `apply` (with any lambda), and with it
`reverse(root, l, r)` and `assignRange(root, v, l, r)`, throws out-of-range if
and only if `l >= size(root)` or `r >= size(root)`, and a call that throws
leaves `root` as it was. -/
theorem apply_validates_before_mutating {ρ : Type} (root : Node α) (v : α) (l r : Nat)
    (f : Slot → Parts α → Parts α × ρ) :
    (((apply root l r f).2 = .error .outOfRange ↔ (l ≥ size root ∨ r ≥ size root))
        ∧ ((apply root l r f).2 = .error .outOfRange → (apply root l r f).1 = root))
      ∧ (((reverseRange root l r).2 = .error .outOfRange ↔ (l ≥ size root ∨ r ≥ size root))
        ∧ ((reverseRange root l r).2 = .error .outOfRange → (reverseRange root l r).1 = root))
      ∧ (((assignRange root v l r).2 = .error .outOfRange
            ↔ (l ≥ size root ∨ r ≥ size root))
        ∧ ((assignRange root v l r).2 = .error .outOfRange
            → (assignRange root v l r).1 = root)) := by
  by_cases hr : l ≥ size root ∨ r ≥ size root
  · simp only [reverseRange, assignRange, apply_out_of_range root l r _ hr, hr, Except.map]
    simp
  · simp only [reverseRange, assignRange,
      apply_in_range root l r _ (show l < size root by omega) (show r < size root by omega),
      hr, Except.map]
    simp

/-- C9: the heap order on priorities is kept.  If `root` (and, for `merge`,
the second operand too) is heap-ordered, so is every tree produced by `split`,
`merge`, `insert` (whatever priority the new node draws), `erase`, `replace`,
`reverse(root, l, r)` and `assignRange`; `insert` does produce a tree unless
`root` is `nullptr`. -/
theorem heap_order_preserved [Inhabited α] (root other : Node α) (v : α) (i l r : Nat)
    (prio : Int) (h : Heap root) (ho : Heap other) :
    Heap (split root i).1 ∧ Heap (split root i).2
      ∧ Heap (merge root other)
      ∧ (∀ t, insert root v i prio = some t → Heap t)
      ∧ (root ≠ .null → (insert root v i prio).isSome = true)
      ∧ Heap (erase root i)
      ∧ Heap (replace root v i)
      ∧ Heap (reverseRange root l r).1
      ∧ Heap (assignRange root v l r).1 := by
  have hsplit : ∀ (t : Node α) (i : Nat), Heap t → Heap (split t i).1 ∧ Heap (split t i).2 :=
    fun t i ht => ⟨(split_heap t ht i).1, (split_heap t ht i).2.1⟩
  have hmerge : ∀ a b : Node α, Heap a → Heap b → Heap (merge a b) :=
    fun a b ha hb => (merge_heap a b ha hb).1
  exact ⟨(hsplit root i h).1, (hsplit root i h).2, hmerge _ _ h ho,
    insert_invariant Heap hsplit hmerge newNode_heap root v i prio h,
    insert_isSome root v i prio,
    erase_invariant Heap hsplit hmerge root i h,
    (replace_heap root v h i).1,
    reverseRange_invariant Heap hsplit hmerge (fun t ht => (heap_reverse t).2 ht) root l r h,
    assignRange_invariant Heap hsplit hmerge (fun t x ht => (heap_assign t x).2 ht)
      root v l r h⟩

theorem heap_order_preserved_witness :
    Heap tagged4 ∧ Heap balanced3
      ∧ Heap (split tagged4 2).1 ∧ Heap (split tagged4 2).2
      ∧ Heap (merge tagged4 balanced3)
      ∧ (∀ t, insert tagged4 8 2 0 = some t → Heap t)
      ∧ (tagged4 ≠ .null → (insert tagged4 8 2 0).isSome = true)
      ∧ Heap (erase tagged4 2)
      ∧ Heap (replace tagged4 8 2)
      ∧ Heap (reverseRange tagged4 1 3).1
      ∧ Heap (assignRange tagged4 8 1 3).1 :=
  ⟨by decide, by decide,
    heap_order_preserved tagged4 balanced3 8 2 1 3 0 (by decide) (by decide)⟩

/-- C10: subtree sizes are kept.  If every node of `root` (and of the second
operand of `merge`) stores `1 + size(left) + size(right)`, so does every node
of every tree produced by `split`, `merge`, `insert`, `erase`, `replace`,
`reverse(root, l, r)` and `assignRange`, and the stored size of each produced
root is the length of its traversal. -/
theorem sizes_preserved [Inhabited α] (root other : Node α) (v : α) (i l r : Nat)
    (prio : Int) (h : SizeInv root) (ho : SizeInv other) :
    (SizeInv (split root i).1 ∧ size (split root i).1 = (traverse (split root i).1).length)
      ∧ (SizeInv (split root i).2 ∧ size (split root i).2 = (traverse (split root i).2).length)
      ∧ (SizeInv (merge root other)
          ∧ size (merge root other) = (traverse (merge root other)).length)
      ∧ (∀ t, insert root v i prio = some t → SizeInv t ∧ size t = (traverse t).length)
      ∧ (root ≠ .null → (insert root v i prio).isSome = true)
      ∧ (SizeInv (erase root i) ∧ size (erase root i) = (traverse (erase root i)).length)
      ∧ (SizeInv (replace root v i)
          ∧ size (replace root v i) = (traverse (replace root v i)).length)
      ∧ (SizeInv (reverseRange root l r).1
          ∧ size (reverseRange root l r).1 = (traverse (reverseRange root l r).1).length)
      ∧ (SizeInv (assignRange root v l r).1
          ∧ size (assignRange root v l r).1
            = (traverse (assignRange root v l r).1).length) := by
  have hsplit : ∀ (t : Node α) (i : Nat),
      SizeInv t → SizeInv (split t i).1 ∧ SizeInv (split t i).2 :=
    fun t i ht => ⟨(split_spec t ht i).2.2.1, (split_spec t ht i).2.2.2⟩
  have hlen : ∀ t : Node α, SizeInv t → SizeInv t ∧ size t = (traverse t).length :=
    fun t ht => ⟨ht, by rw [traverse_eq_toList]; exact sizeInv_size t ht⟩
  exact ⟨hlen _ (hsplit root i h).1, hlen _ (hsplit root i h).2,
    hlen _ (merge_sizeInv _ _ h ho),
    fun t ht => hlen t (insert_invariant SizeInv hsplit merge_sizeInv newNode_sizeInv
      root v i prio h t ht),
    insert_isSome root v i prio,
    hlen _ (erase_invariant SizeInv hsplit merge_sizeInv root i h),
    hlen _ (replace_sizeInv root v h i).1,
    hlen _ (reverseRange_invariant SizeInv hsplit merge_sizeInv
      (fun t ht => (sizeInv_reverse t).2 ht) root l r h),
    hlen _ (assignRange_invariant SizeInv hsplit merge_sizeInv
      (fun t x ht => (sizeInv_assign t x).2 ht) root v l r h)⟩

theorem sizes_preserved_witness :
    SizeInv tagged4 ∧ SizeInv balanced3
      ∧ (SizeInv (split tagged4 2).1
          ∧ size (split tagged4 2).1 = (traverse (split tagged4 2).1).length)
      ∧ (SizeInv (split tagged4 2).2
          ∧ size (split tagged4 2).2 = (traverse (split tagged4 2).2).length)
      ∧ (SizeInv (merge tagged4 balanced3)
          ∧ size (merge tagged4 balanced3) = (traverse (merge tagged4 balanced3)).length)
      ∧ (∀ t, insert tagged4 8 2 0 = some t → SizeInv t ∧ size t = (traverse t).length)
      ∧ (tagged4 ≠ .null → (insert tagged4 8 2 0).isSome = true)
      ∧ (SizeInv (erase tagged4 2)
          ∧ size (erase tagged4 2) = (traverse (erase tagged4 2)).length)
      ∧ (SizeInv (replace tagged4 8 2)
          ∧ size (replace tagged4 8 2) = (traverse (replace tagged4 8 2)).length)
      ∧ (SizeInv (reverseRange tagged4 1 3).1
          ∧ size (reverseRange tagged4 1 3).1
            = (traverse (reverseRange tagged4 1 3).1).length)
      ∧ (SizeInv (assignRange tagged4 8 1 3).1
          ∧ size (assignRange tagged4 8 1 3).1
            = (traverse (assignRange tagged4 8 1 3).1).length) :=
  ⟨by decide, by decide,
    sizes_preserved tagged4 balanced3 8 2 1 3 0 (by decide) (by decide)⟩

/-! ## Reads leave the sequence alone -/

theorem toList_mk_clean (l r : Node α) (v ta : α) (s : Nat) (p : Int) :
    toList (.mk l r v ta s p false false) = toList l ++ v :: toList r := by
  simp [toList]

theorem at_toList (t : Node α) : ∀ i, toList (at_ t i).1 = toList t := by
  induction t using push_induction with
  | hnull => intro i; rw [at_null]
  | hmk t l1 r1 v ta s p hp ihl ihr =>
    intro i
    rw [at_of_push hp]
    have e : toList t = toList l1 ++ v :: toList r1 := by
      rw [← toList_push t, hp, toList_mk_clean]
    by_cases h1 : i ≥ s
    · rw [if_pos h1]
    · rw [if_neg h1]
      by_cases h2 : size l1 = i
      · rw [if_pos h2, e, toList_mk_clean]
      · rw [if_neg h2]
        by_cases h3 : i ≤ size l1
        · rw [if_pos h3, e, toList_mk_clean, ihl]
        · rw [if_neg h3, e, toList_mk_clean, ihr]

theorem print_toList (t : Node α) : toList (print t).1 = toList t := by
  induction t using push_induction with
  | hnull => simp [print]
  | hmk t l1 r1 v ta s p hp ihl ihr =>
    rw [print_of_push hp, toList_mk_clean, ihl, ihr, ← toList_push t, hp, toList_mk_clean]

theorem at_sizeInv (t : Node α) : SizeInv t → ∀ i, SizeInv (at_ t i).1 := by
  induction t using push_induction with
  | hnull => intro _ i; rw [at_null]; trivial
  | hmk t l1 r1 v ta s p hp ihl ihr =>
    intro hinv i
    have hinv0 := hinv
    rw [← sizeInv_push, hp] at hinv
    obtain ⟨c1, c2, c3⟩ := hinv
    have hsize : ∀ (u : Node α) (j : Nat), SizeInv u → size (at_ u j).1 = size u := by
      intro u j hu
      cases u with
      | null => rw [at_null]
      | mk ul ur uv uta us up urev uasg =>
        obtain ⟨ul1, ur1, hu1⟩ := push_mk ul ur uv uta us up urev uasg
        rw [at_of_push hu1]
        split_ifs <;> rfl
    rw [at_of_push hp]
    by_cases h1 : i ≥ s
    · rw [if_pos h1]; exact hinv0
    · rw [if_neg h1]
      by_cases h2 : size l1 = i
      · rw [if_pos h2]; exact ⟨c1, c2, c3⟩
      · rw [if_neg h2]
        by_cases h3 : i ≤ size l1
        · rw [if_pos h3]
          exact ⟨by rw [hsize l1 i c2]; exact c1, ihl c2 i, c3⟩
        · rw [if_neg h3]
          exact ⟨by rw [hsize r1 _ c3]; exact c1, c2, ihr c3 _⟩

theorem ne_null_of_toList {t : Node α} (h : toList t ≠ []) : t ≠ .null := by
  intro hn
  rw [hn] at h
  exact h rfl

theorem toList_ne_nil {t : Node α} (h : t ≠ .null) : toList t ≠ [] := by
  cases t with
  | null => exact absurd rfl h
  | mk l r v ta s p rev asg => simp [toList]

/-! ## The claims, continued -/

/-- C12 (at the failing input): `tied3` satisfies the size and heap invariants
and traverses to `[10, 20, 30]`; `reverse(root, 0, 0)` applied twice succeeds
both times and leaves `[10, 30, 20]`.  The first call puts the node `20`, whose
priority ties with the old top node, on top; the second call then mirrors the
suffix `[20, 30]`. -/
theorem reverseRange_twice_not_identity :
    SizeInv tied3 ∧ Heap tied3
      ∧ traverse tied3 = [10, 20, 30]
      ∧ (reverseRange tied3 0 0).2 = .ok ()
      ∧ traverse (reverseRange tied3 0 0).1 = [10, 20, 30]
      ∧ (reverseRange (reverseRange tied3 0 0).1 0 0).2 = .ok ()
      ∧ traverse (reverseRange (reverseRange tied3 0 0).1 0 0).1 = [10, 30, 20] := by
  have e : (reverseRange tied3 0 0).1
      = .mk (.mk .null .null 10 0 1 1 false false) (.mk .null .null 30 0 1 2 false false)
          20 0 3 1 false false := by
    simp [tied3, reverse, reverseRange, apply, reverseLambda, rootSlot, rangeLength, split,
      merge, push, size, update]
  refine ⟨by decide, by decide, ?_, ?_, ?_, ?_, ?_⟩
  · simp [traverse, print, push, tied3]
  · simp [reverseRange, apply, tied3, size, Except.map]
  · rw [e]; simp [traverse, print, push]
  · rw [e]; simp [reverseRange, apply, size, Except.map]
  · rw [e]
    simp [traverse, print, push, reverse, reverseRange, apply, reverseLambda, rootSlot,
      rangeLength, split, merge, size, update]

/-- The failure of C12 on a tree the operations themselves build: from `Node()`,
`insert(20,0)`, `insert(10,1)`, `insert(30,0)` with priorities 1, 1, 2 and then
`reverse(0,2)` give `[10, 20, 30]`; `reverse(0,0)` twice on that tree leaves
`[10, 30, 20]`. -/
theorem reverseRange_twice_on_built_tree :
    ∃ t1 t2 t3 : Node Int,
      insert emptyNode 20 0 1 = some t1 ∧ insert t1 10 1 1 = some t2
        ∧ insert t2 30 0 2 = some t3
        ∧ SizeInv (reverseRange t3 0 2).1 ∧ Heap (reverseRange t3 0 2).1
        ∧ traverse (reverseRange t3 0 2).1 = [10, 20, 30]
        ∧ traverse (reverseRange (reverseRange (reverseRange t3 0 2).1 0 0).1 0 0).1
            = [10, 30, 20] := by
  have e1 : insert (emptyNode : Node Int) 20 0 1 = some (newNode 20 1) := by
    simp [insert, emptyNode]
  have e2 : insert (newNode (20 : Int) 1) 10 1 1
      = some (.mk (.mk .null .null 20 0 1 1 false false) .null 10 0 2 1 false false) := by
    simp [insert, newNode, split, merge, push, size, update]
  have e3 : insert (.mk (.mk .null .null 20 0 1 1 false false) .null (10 : Int) 0 2 1
        false false) 30 0 2
      = some (.mk (.mk (.mk .null .null 30 0 1 2 false false) .null 20 0 2 1 false false)
          .null 10 0 3 1 false false) := by
    simp [insert, newNode, split, merge, push, size, update]
  have e4 : (reverseRange (.mk (.mk (.mk .null .null 30 0 1 2 false false) .null 20 0 2 1
        false false) .null (10 : Int) 0 3 1 false false) 0 2).1
      = .mk .null (.mk (.mk .null .null 30 0 1 2 false false) .null 20 0 2 1 false false)
          10 0 3 1 true false := by
    simp [reverse, reverseRange, apply, reverseLambda, rootSlot, rangeLength, split, merge,
      push, size, update]
  have e5 : (reverseRange (.mk .null (.mk (.mk .null .null 30 0 1 2 false false) .null 20 0 2 1
        false false) (10 : Int) 0 3 1 true false) 0 0).1
      = .mk (.mk .null .null 10 0 1 1 false false) (.mk .null .null 30 0 1 2 true false)
          20 0 3 1 false false := by
    simp [reverse, reverseRange, apply, reverseLambda, rootSlot, rangeLength, split, merge,
      push, size, update]
  refine ⟨_, _, _, e1, e2, e3, ?_, ?_, ?_, ?_⟩
  · rw [e4]; decide
  · rw [e4]; decide
  · rw [e4]; simp [traverse, print, push, reverse]
  · rw [e4, e5]
    simp [traverse, print, push, reverse, reverseRange, apply, reverseLambda, rootSlot,
      rangeLength, split, merge, size, update]

/-- Erase followed by re-insert on a tree of at least two elements: with the
size invariant and `i < size`, `x` the element at position `i`, the insert
returns and the traversal is the one before the erase. -/
theorem erase_insert_restores [Inhabited α] (root : Node α) (i : Nat) (x : α) (prio : Int)
    (h : SizeInv root) (h2 : 2 ≤ size root) (hi : i < size root)
    (hx : (traverse root)[i]? = some x) :
    ∃ t, insert (erase root i) x i prio = some t ∧ traverse t = traverse root := by
  have hlen := sizeInv_size root h
  have he := erase_toList root i h
  have hinv : SizeInv (erase root i) :=
    erase_invariant SizeInv
      (fun t i ht => ⟨(split_spec t ht i).2.2.1, (split_spec t ht i).2.2.2⟩)
      merge_sizeInv root i h
  have hne : erase root i ≠ .null := by
    apply ne_null_of_toList
    intro hnil
    have := congrArg List.length hnil
    rw [he] at this
    simp only [List.length_append, List.length_take, List.length_drop, List.length_nil] at this
    omega
  obtain ⟨t, ht1, ht2⟩ := insert_toList (erase root i) x i prio hne hinv
  refine ⟨t, ht1, ?_⟩
  simp only [traverse_eq_toList] at hx ⊢
  rw [ht2, he]
  have hi2 : i < (toList root).length := by omega
  rw [List.getElem?_eq_getElem hi2] at hx
  cases hx
  rw [List.take_append_of_le_length (by simp; omega),
    List.take_take, Nat.min_self,
    List.drop_append_of_le_length (by simp; omega)]
  rw [List.drop_take]
  simp only [Nat.sub_self, List.take_zero, List.nil_append]
  conv_rhs => rw [← List.take_append_drop i (toList root)]
  rw [List.drop_eq_getElem_cons hi2]

/-- C13 (at the failing input): the one-element tree `[5]` satisfies the size
invariant and `at(root, 0)` reads `5`; `erase(root, 0)` leaves the `nullptr`
root, on which `insert(root, 5, 0)` dereferences `nullptr` and produces no
tree. -/
theorem erase_insert_single_undefined :
    SizeInv (newNode (5 : Int) 1)
      ∧ size (newNode (5 : Int) 1) = 1
      ∧ (at_ (newNode (5 : Int) 1) 0).2 = .ok 5
      ∧ erase (newNode (5 : Int) 1) 0 = .null
      ∧ insert (erase (newNode (5 : Int) 1) 0) 5 0 1 = none := by
  have e : erase (newNode (5 : Int) 1) 0 = .null := by
    simp [erase, newNode, split, merge, push, size, update]
  refine ⟨by decide, rfl, ?_, e, ?_⟩
  · simp [at_, newNode, push, size]
  · rw [e]; rfl

/-- C15: reads are logically read-only.  The tree `at(root, i)` leaves behind
(for any `i`, in range or not) and the tree a traversal leaves behind have the
traversal of the tree before, so a second traversal prints the same sequence;
and `push(node)` does not change the traversal of the node's subtree. -/
theorem reads_keep_the_sequence :
    (∀ (root : Node α) (i : Nat), traverse (at_ root i).1 = traverse root)
      ∧ (∀ root : Node α, traverse (print root).1 = traverse root)
      ∧ (∀ root : Node α, (print (print root).1).2 = (print root).2)
      ∧ (∀ node : Node α, traverse (push node) = traverse node) := by
  refine ⟨fun root i => ?_, fun root => ?_, fun root => ?_, fun node => ?_⟩
  · simp only [traverse_eq_toList, at_toList]
  · simp only [traverse_eq_toList, print_toList]
  · have e := print_toList root
    simp only [← traverse_eq_toList] at e
    exact e
  · simp only [traverse_eq_toList, toList_push]

theorem rangeLength_inverted {l r : Nat} (hl : l < 2 ^ 64) (hlr : r + 1 < l) :
    rangeLength l r = 2 ^ 64 - (l - r - 1) := by
  unfold rangeLength
  omega

/-- C19: inverted bounds are not rejected and wrap.  For every tree with the
size invariant (stored size a `uint64_t`) and all `l, r < size` with
`l > r + 1`, `apply` does not throw; the length handed to its second split is
`r - l + 1` modulo `2^64`, that is `2^64 - (l - r - 1)`, which exceeds the size
of the suffix it splits (and the size of the whole tree when that is at most
`2^63`); the isolated middle is the whole suffix `[l, size)`, and
`assignRange(root, v, l, r)` overwrites every position from `l` to the end. -/
theorem inverted_range_wraps {ρ : Type} (root : Node α) (v : α) (l r : Nat)
    (f : Slot → Parts α → Parts α × ρ)
    (h : SizeInv root) (hsz : size root < 2 ^ 64) (hl : l < size root) (hr : r < size root)
    (hlr : r + 1 < l) :
    (∃ x, (apply root l r f).2 = .ok x)
      ∧ rangeLength l r = 2 ^ 64 - (l - r - 1)
      ∧ size (split root l).2 < rangeLength l r
      ∧ (size root ≤ 2 ^ 63 → size root < rangeLength l r)
      ∧ traverse (split (split root l).2 (rangeLength l r)).1 = (traverse root).drop l
      ∧ traverse (split (split root l).2 (rangeLength l r)).2 = []
      ∧ (assignRange root v l r).2 = .ok ()
      ∧ traverse (assignRange root v l r).1
          = (traverse root).take l ++ List.replicate (size root - l) v := by
  have hk := rangeLength_inverted (show l < 2 ^ 64 by omega) hlr
  have hlen := sizeInv_size root h
  obtain ⟨a1, a2, -, a4⟩ := split_spec root h l
  obtain ⟨b1, b2, -, -⟩ := split_spec _ a4 (rangeLength l r)
  have hs2 : size (split root l).2 = size root - l := by
    rw [sizeInv_size _ a4, a2, List.length_drop, hlen]
  have hbig : size root - l < rangeLength l r := by rw [hk]; omega
  have hdl : ((toList root).drop l).length = size root - l := by
    rw [List.length_drop, hlen]
  have e1 : ((toList root).drop l).take (rangeLength l r) = (toList root).drop l :=
    List.take_of_length_le (by omega)
  have e2 : ((toList root).drop l).drop (rangeLength l r) = [] :=
    List.drop_of_length_le (by omega)
  simp only [traverse_eq_toList]
  refine ⟨⟨_, by rw [apply_in_range root l r f hl hr]⟩, hk, by rw [hs2]; exact hbig,
    fun _ => by rw [hk]; omega, ?_, ?_, ?_, ?_⟩
  · rw [b1, a2, e1]
  · rw [b2, a2, e2]
  · simp only [assignRange, apply_in_range root l r _ hl hr]
    rfl
  · simp only [assignRange, apply_in_range root l r _ hl hr, assignLambda]
    rw [merge_toList, merge_toList, toList_assign, a1, b1, b2, a2, e1, e2,
      List.map_const', hdl, List.append_nil]

theorem inverted_range_wraps_witness :
    SizeInv tagged4 ∧ size tagged4 < 2 ^ 64 ∧ 2 < size tagged4 ∧ 0 < size tagged4 ∧ 0 + 1 < 2
      ∧ ((∃ x, (apply tagged4 2 0 reverseLambda).2 = .ok x)
        ∧ rangeLength 2 0 = 2 ^ 64 - (2 - 0 - 1)
        ∧ size (split tagged4 2).2 < rangeLength 2 0
        ∧ (size tagged4 ≤ 2 ^ 63 → size tagged4 < rangeLength 2 0)
        ∧ traverse (split (split tagged4 2).2 (rangeLength 2 0)).1 = (traverse tagged4).drop 2
        ∧ traverse (split (split tagged4 2).2 (rangeLength 2 0)).2 = []
        ∧ (assignRange tagged4 99 2 0).2 = .ok ()
        ∧ traverse (assignRange tagged4 99 2 0).1
            = (traverse tagged4).take 2 ++ List.replicate (size tagged4 - 2) 99) :=
  ⟨by decide, by decide, by decide, by decide, by decide,
    inverted_range_wraps tagged4 99 2 0 reverseLambda (by decide) (by decide) (by decide)
      (by decide) (by decide)⟩

/-- C20: for every tree with the size invariant (empty or not) and every
`index >= size`, `erase(root, index)`, which has no error path, leaves a tree
with the traversal it had before. -/
theorem erase_out_of_range_keeps_sequence (root : Node α) (index : Nat) (h : SizeInv root)
    (hi : size root ≤ index) :
    traverse (erase root index) = traverse root := by
  have hlen := sizeInv_size root h
  simp only [traverse_eq_toList]
  rw [erase_toList root index h, List.take_of_length_le (by omega),
    List.drop_of_length_le (by omega), List.append_nil]

theorem erase_out_of_range_keeps_sequence_witness :
    SizeInv tagged4 ∧ size tagged4 ≤ 9
      ∧ traverse (erase tagged4 9) = traverse tagged4 :=
  ⟨by decide, by decide, erase_out_of_range_keeps_sequence tagged4 9 (by decide) (by decide)⟩

theorem splitSizeInv (t : Node α) (i : Nat) (ht : SizeInv t) :
    SizeInv (split t i).1 ∧ SizeInv (split t i).2 :=
  ⟨(split_spec t ht i).2.2.1, (split_spec t ht i).2.2.2⟩

theorem insert_step [Inhabited α] (root : Node α) (v : α) (i : Nat) (prio : Int)
    (hne : root ≠ .null) (h : SizeInv root) :
    ∃ t, insert root v i prio = some t
      ∧ toList t = (toList root).take i ++ v :: (toList root).drop i
      ∧ SizeInv t ∧ t ≠ .null := by
  obtain ⟨t, ht1, ht2⟩ := insert_toList root v i prio hne h
  refine ⟨t, ht1, ht2, ?_, ?_⟩
  · exact insert_invariant SizeInv splitSizeInv merge_sizeInv newNode_sizeInv root v i prio h
      t ht1
  · apply ne_null_of_toList
    rw [ht2]
    simp

theorem rootSlot_whole (root : Node α) (hne : root ≠ .null) (h : SizeInv root) :
    rootSlot root 0 (size root) = .second := by
  cases root with
  | null => exact absurd rfl hne
  | mk l r v ta s p rev asg =>
    obtain ⟨l1, r1, hp⟩ := push_mk l r v ta s p rev asg
    rw [← sizeInv_push, hp] at h
    obtain ⟨c1, c2, c3⟩ := h
    obtain ⟨-, a2, -, a4⟩ := split_spec l1 c2 0
    have e : size (split l1 0).2 = size l1 := by
      rw [sizeInv_size _ a4, a2, sizeInv_size l1 c2]
      simp
    have hs : size (Node.mk l r v ta s p rev asg) = s := rfl
    simp only [rootSlot, hp, hs, e, Nat.zero_le, if_true]
    rw [if_neg (by omega)]

/-- C11 (at the failing input): the empty tree the scenario starts from is the
absent root, which satisfies the size invariant and traverses to `[]`; its first
step `insert(10,0)` reads `root->size` on that `nullptr` root whatever priority
is drawn, so no tree with traversal `[10]` is produced.  The placeholder `Node()`
is not an empty sequence: it breaks the size invariant and traverses to one
default element. -/
theorem scenario_first_insert_undefined :
    SizeInv (.null : Node Int)
      ∧ size (.null : Node Int) = 0
      ∧ traverse (.null : Node Int) = []
      ∧ (∀ p : Int, insert (.null : Node Int) 10 0 p = none)
      ∧ ¬ SizeInv (emptyNode : Node Int)
      ∧ traverse (emptyNode : Node Int) = [0] := by
  refine ⟨trivial, rfl, ?_, fun _ => rfl, by decide, ?_⟩
  · simp [traverse, print]
  · simp [traverse, print, emptyNode, push]

/-- The positional scenario of the specification run from the placeholder
`Node()` instead of the empty tree, for every choice of the three node
priorities: `insert(10,0)` gives `[10]`; `insert(20,0)` gives `[20,10]`; `insert(30,1)` gives `[20,30,10]`;
`reverse(0,2)` gives `[10,30,20]`; `assignRange(99,1,1)` gives `[10,99,20]`;
`at(1)` returns `99`; `erase(0)`, on the tree `at` left behind, gives `[99,20]`. -/
theorem positional_scenario (p1 p2 p3 : Int) :
    ∃ t1 t2 t3 : Node Int,
      insert emptyNode 10 0 p1 = some t1 ∧ traverse t1 = [10]
      ∧ insert t1 20 0 p2 = some t2 ∧ traverse t2 = [20, 10]
      ∧ insert t2 30 1 p3 = some t3 ∧ traverse t3 = [20, 30, 10]
      ∧ (reverseRange t3 0 2).2 = .ok ()
      ∧ traverse (reverseRange t3 0 2).1 = [10, 30, 20]
      ∧ (assignRange (reverseRange t3 0 2).1 99 1 1).2 = .ok ()
      ∧ traverse (assignRange (reverseRange t3 0 2).1 99 1 1).1 = [10, 99, 20]
      ∧ (at_ (assignRange (reverseRange t3 0 2).1 99 1 1).1 1).2 = .ok 99
      ∧ traverse (erase (at_ (assignRange (reverseRange t3 0 2).1 99 1 1).1 1).1 0)
          = [99, 20] := by
  have h1 : SizeInv (newNode (10 : Int) p1) := newNode_sizeInv _ _
  have n1 : newNode (10 : Int) p1 ≠ .null := by simp [newNode]
  have l1 : toList (newNode (10 : Int) p1) = [10] := newNode_toList _ _
  obtain ⟨t2, i2, l2, h2, n2⟩ := insert_step (newNode (10 : Int) p1) 20 0 p2 n1 h1
  rw [l1] at l2
  obtain ⟨t3, i3, l3, h3, n3⟩ := insert_step t2 30 1 p3 n2 h2
  rw [l2] at l3
  have s3 : size t3 = 3 := by rw [sizeInv_size t3 h3, l3]; rfl
  obtain ⟨r1, r2⟩ := reverseRange_toList t3 0 2 h3 (by omega) (by omega) (by omega)
  have hslot : rootSlot t3 0 (2 - 0 + 1) = .second := by
    have := rootSlot_whole t3 n3 h3
    rw [s3] at this
    exact this
  rw [hslot, l3] at r2
  have h4 : SizeInv (reverseRange t3 0 2).1 :=
    reverseRange_invariant SizeInv splitSizeInv merge_sizeInv
      (fun t ht => (sizeInv_reverse t).2 ht) t3 0 2 h3
  have s4 : size (reverseRange t3 0 2).1 = 3 := by rw [sizeInv_size _ h4, r2]; rfl
  obtain ⟨a1, a2⟩ := assignRange_toList (reverseRange t3 0 2).1 99 1 1 h4 (by omega)
    (by omega) (by omega)
  rw [r2] at a2
  have h5 : SizeInv (assignRange (reverseRange t3 0 2).1 99 1 1).1 :=
    assignRange_invariant SizeInv splitSizeInv merge_sizeInv
      (fun t x ht => (sizeInv_assign t x).2 ht) _ 99 1 1 h4
  have s5 : size (assignRange (reverseRange t3 0 2).1 99 1 1).1 = 3 := by
    rw [sizeInv_size _ h5, a2]; rfl
  obtain ⟨x, x1, x2⟩ := (at_spec _ h5 1).2 (by omega)
  rw [a2] at x2
  have hx : x = 99 := by
    simp at x2
    exact x2.symm
  subst hx
  have h6 := at_sizeInv _ h5 1
  have e6 := erase_toList _ 0 h6
  rw [at_toList, a2] at e6
  refine ⟨newNode 10 p1, t2, t3, (insert_into_placeholder 10 0 p1).1, ?_, i2, ?_, i3, ?_,
    r1, ?_, a1, ?_, x1, ?_⟩
  · rw [traverse_eq_toList, l1]
  · rw [traverse_eq_toList, l2]; rfl
  · rw [traverse_eq_toList, l3]; rfl
  · rw [traverse_eq_toList, r2]; rfl
  · rw [traverse_eq_toList, a2]; rfl
  · rw [traverse_eq_toList, e6]; rfl

/-! ## Replace -/

theorem mirror_mirror (k : Skel) : k.mirror.mirror = k := by
  induction k with
  | leaf => rfl
  | node l r s p ihl ihr => simp [Skel.mirror, ihl, ihr]

theorem shapeOf_assign (t : Node α) (x : α) : shapeOf (assign t x) = shapeOf t := by
  cases t <;> rfl

theorem shapeOf_reverse (t : Node α) : shapeOf (reverse t) = (shapeOf t).mirror := by
  cases t with
  | null => rfl
  | mk l r v ta s p rev asg =>
    cases rev <;> simp [reverse, shapeOf, Skel.mirror, mirror_mirror]

theorem shapeOf_push (t : Node α) : shapeOf (push t) = shapeOf t := by
  cases t with
  | null => rfl
  | mk l r v ta s p rev asg =>
    cases rev <;> cases asg <;> simp [push, shapeOf, shapeOf_assign, shapeOf_reverse]

theorem set_mid_eq (xs ys : List α) (v x : α) (i : Nat) (h : xs.length = i) :
    (xs ++ v :: ys).set i x = xs ++ x :: ys := by
  subst h
  simp [List.set_append_right]

theorem set_mid_gt (xs ys : List α) (v x : α) (i : Nat) (h : xs.length < i) :
    (xs ++ v :: ys).set i x = xs ++ v :: ys.set (i - xs.length - 1) x := by
  rw [List.set_append_right _ _ (by omega)]
  obtain ⟨k, hk⟩ : ∃ k, i - xs.length = k + 1 := ⟨i - xs.length - 1, by omega⟩
  rw [hk]
  simp

theorem replace_spec (t : Node α) (x : α) :
    SizeInv t → ∀ i, i < size t →
      toList (replace t x i) = (toList t).set i x
        ∧ shapeOf (replace t x i) = shapeOf t
        ∧ skeleton (replace t x i) = skeleton (at_ t i).1 := by
  induction t using push_induction with
  | hnull => intro _ i hi; exact absurd hi (Nat.not_lt_zero i)
  | hmk t l1 r1 v ta s p hp ihl ihr =>
    intro hinv i hi
    rw [← sizeInv_push, hp] at hinv
    obtain ⟨c1, c2, c3⟩ := hinv
    have hs : size t = s := by rw [← size_push, hp]; rfl
    have hl := sizeInv_size l1 c2
    rw [hs] at hi
    have e : toList t = toList l1 ++ v :: toList r1 := by
      rw [← toList_push t, hp, toList_mk_clean]
    have es : shapeOf t = .node (shapeOf l1) (shapeOf r1) s p := by
      rw [← shapeOf_push t, hp]; simp [shapeOf]
    rw [replace_of_push hp, at_of_push hp, if_neg (show ¬ i ≥ s by omega), e, es]
    by_cases h2 : size l1 = i
    · rw [if_pos h2, if_pos h2, toList_update, toList_mk_clean]
      refine ⟨(set_mid_eq _ _ _ _ _ (by omega)).symm, ?_, ?_⟩
      · simp only [update, shapeOf, Bool.false_eq_true, if_false]
        congr 1
        omega
      · simp only [update, skeleton]
        congr 1
        omega
    · rw [if_neg h2, if_neg h2]
      by_cases h3 : i ≤ size l1
      · obtain ⟨d1, d2, d3⟩ := ihl c2 i (by omega)
        have d4 := (replace_sizeInv l1 x c2 i).2
        rw [if_pos h3, if_pos h3, toList_update, toList_mk_clean, d1]
        refine ⟨(List.set_append_left _ _ (by omega)).symm, ?_, ?_⟩
        · simp only [update, shapeOf, Bool.false_eq_true, if_false, d2]
          congr 1
          omega
        · simp only [update, skeleton, d3]
          congr 1
          omega
      · obtain ⟨d1, d2, d3⟩ := ihr c3 (i - size l1 - 1) (by omega)
        have d4 := (replace_sizeInv r1 x c3 (i - size l1 - 1)).2
        rw [if_neg h3, if_neg h3, toList_update, toList_mk_clean, d1]
        refine ⟨?_, ?_, ?_⟩
        · rw [set_mid_gt _ _ _ _ _ (by omega), hl]
        · simp only [update, shapeOf, Bool.false_eq_true, if_false, d2]
          congr 1
          omega
        · simp only [update, skeleton, d3]
          congr 1
          omega

/-- C14: for every tree with the size invariant, every value `v` and every
`i < size`, after `replace(root, v, i)` the traversal is the one before with
position `i` set to `v`; the shape with the priority and size of every node
(pending reverse tags read off) is the one before; and the shape as the
pointers stand is the one the pushes along the descent path leave, the same
pushes `at(root, i)` performs: no split, merge or reallocation. -/
theorem replace_changes_one_value (root : Node α) (v : α) (i : Nat) (h : SizeInv root)
    (hi : i < size root) :
    traverse (replace root v i) = (traverse root).set i v
      ∧ shapeOf (replace root v i) = shapeOf root
      ∧ skeleton (replace root v i) = skeleton (at_ root i).1 := by
  simp only [traverse_eq_toList]
  exact replace_spec root v h i hi

theorem replace_changes_one_value_witness :
    SizeInv tagged4 ∧ 1 < size tagged4
      ∧ traverse (replace tagged4 8 1) = (traverse tagged4).set 1 8
      ∧ shapeOf (replace tagged4 8 1) = shapeOf tagged4
      ∧ skeleton (replace tagged4 8 1) = skeleton (at_ tagged4 1).1 :=
  ⟨by decide, by decide, replace_changes_one_value tagged4 8 1 (by decide) (by decide)⟩

/-! ## Split by predicate -/

theorem splitBy_of_push {κ : Type} (compare : α → κ → Action → Bool)
    {t l1 r1 : Node α} {v ta : α} {s : Nat} {p : Int} {rev asg : Bool}
    (h : push t = .mk l1 r1 v ta s p rev asg) (point : κ) (action : Action) :
    splitBy compare t point action =
      if !compare v point action then
        ((splitBy compare l1 point action).1,
          update (.mk (splitBy compare l1 point action).2 r1 v ta s p rev asg))
      else
        (update (.mk l1 (splitBy compare r1 point action).1 v ta s p rev asg),
          (splitBy compare r1 point action).2) := by
  cases t with
  | null => simp [push] at h
  | mk l r v0 ta0 s0 p0 rev0 asg0 =>
    rw [splitBy]
    split
    · next h0 => rw [h] at h0; cases h0
    · next h0 => rw [h] at h0; cases h0; rfl

theorem splitBy_null {κ : Type} (compare : α → κ → Action → Bool) (point : κ)
    (action : Action) : splitBy compare (.null : Node α) point action = (.null, .null) := by
  rw [splitBy]

theorem splitBy_spec {κ : Type} (compare : α → κ → Action → Bool) (point : κ)
    (action : Action) (t : Node α) :
    ∀ xs ys, toList t = xs ++ ys →
      (∀ x ∈ xs, compare x point action = true) →
      (∀ y ∈ ys, compare y point action = false) →
      toList (splitBy compare t point action).1 = xs
        ∧ toList (splitBy compare t point action).2 = ys := by
  induction t using push_induction with
  | hnull =>
    intro xs ys h _ _
    rw [splitBy_null]
    simp only [toList] at h ⊢
    have := List.append_eq_nil.1 h.symm
    exact ⟨this.1.symm, this.2.symm⟩
  | hmk t l1 r1 v ta s p hp ihl ihr =>
    intro xs ys h hx hy
    rw [← toList_push t, hp, toList_mk_clean] at h
    rw [splitBy_of_push compare hp]
    rcases List.append_eq_append_iff.1 h with ⟨a, ha1, ha2⟩ | ⟨c, hc1, hc2⟩
    · -- xs = toList l1 ++ a, v :: toList r1 = a ++ ys
      cases a with
      | nil =>
        simp only [List.append_nil, List.nil_append] at ha1 ha2
        have hv : compare v point action = false := hy v (by rw [← ha2]; simp)
        simp only [hv, Bool.not_false, if_true, toList_update, toList_mk_clean]
        obtain ⟨e1, e2⟩ := ihl xs [] (by rw [ha1]; simp) hx (by simp)
        rw [e1, e2, ← ha2]
        exact ⟨rfl, rfl⟩
      | cons b a1 =>
        simp only [List.cons_append, List.cons.injEq] at ha2
        obtain ⟨hb, ha3⟩ := ha2
        subst hb
        have hv : compare v point action = true := hx v (by rw [ha1]; simp)
        simp only [hv, Bool.not_true, Bool.false_eq_true, if_false, toList_update,
          toList_mk_clean]
        obtain ⟨e1, e2⟩ := ihr a1 ys ha3
          (fun x hxa => hx x (by rw [ha1]; simp [hxa])) hy
        rw [e1, e2, ha1]
        exact ⟨rfl, rfl⟩
    · -- toList l1 = xs ++ c, ys = c ++ v :: toList r1
      have hv : compare v point action = false := hy v (by rw [hc2]; simp)
      simp only [hv, Bool.not_false, if_true, toList_update, toList_mk_clean]
      obtain ⟨e1, e2⟩ := ihl xs c hc1 hx (fun y hyc => hy y (by rw [hc2]; simp [hyc]))
      rw [e1, e2, hc2]
      exact ⟨rfl, rfl⟩

theorem filter_split_true (f : α → Bool) (xs ys : List α)
    (hx : ∀ x ∈ xs, f x = true) (hy : ∀ y ∈ ys, f y = false) :
    (xs ++ ys).filter f = xs ∧ (xs ++ ys).filter (fun x => !f x) = ys := by
  rw [List.filter_append, List.filter_append]
  have e1 : xs.filter f = xs := List.filter_eq_self.2 hx
  have e2 : ys.filter f = [] := List.filter_eq_nil_iff.2 (fun y hyy => by simp [hy y hyy])
  have e3 : xs.filter (fun x => !f x) = [] :=
    List.filter_eq_nil_iff.2 (fun x hxx => by simp [hx x hxx])
  have e4 : ys.filter (fun x => !f x) = ys :=
    List.filter_eq_self.2 (fun y hyy => by simp [hy y hyy])
  rw [e1, e2, e3, e4]
  simp

/-- C16 (the claim as stated, at a single node): the one-node tree `[5]` and the
key `3` under `Higher` satisfy the claim's condition (comparison false on the
empty prefix, true on the suffix `[5]`), yet `split` leaves the node in `left`
and `right` empty, not the other way round. -/
theorem splitBy_true_node_not_in_right :
    traverse (newNode (5 : Int) 1) = [] ++ [5]
      ∧ (∀ x ∈ ([] : List Int), orderCompare x 3 .Higher = false)
      ∧ (∀ x ∈ [(5 : Int)], orderCompare x 3 .Higher = true)
      ∧ traverse (splitBy orderCompare (newNode (5 : Int) 1) 3 .Higher).1 = [5]
      ∧ traverse (splitBy orderCompare (newNode (5 : Int) 1) 3 .Higher).2 = []
      ∧ ¬ (traverse (splitBy orderCompare (newNode (5 : Int) 1) 3 .Higher).2 = [5]
          ∧ traverse (splitBy orderCompare (newNode (5 : Int) 1) 3 .Higher).1 = []) := by
  have e1 : traverse (splitBy orderCompare (newNode (5 : Int) 1) 3 .Higher).1 = [5] := by
    simp [traverse, print, splitBy, newNode, push, orderCompare, update, size]
  have e2 : traverse (splitBy orderCompare (newNode (5 : Int) 1) 3 .Higher).2 = [] := by
    simp [traverse, print, splitBy, newNode, push, orderCompare, update, size]
  refine ⟨?_, ?_, ?_, e1, e2, ?_⟩
  · simp [traverse, print, newNode, push]
  · simp
  · simp [orderCompare]
  · rw [e1, e2]
    simp

/-- C16 (amended): for every tree, key and mode such that the comparison is
true on a prefix of the traversal (its first `n` elements) and false on the
remaining suffix, `split(root, key, mode)` returns `(left, right)` where `left`
holds exactly the elements for which the comparison is true and `right` exactly
those for which it is false, in order; a single node for which the comparison
is true ends up in `left`. -/
theorem splitBy_routes_true_left {κ : Type} (compare : α → κ → Action → Bool)
    (root : Node α) (key : κ) (mode : Action) (n : Nat)
    (htrue : ∀ x ∈ (traverse root).take n, compare x key mode = true)
    (hfalse : ∀ x ∈ (traverse root).drop n, compare x key mode = false) :
    traverse (splitBy compare root key mode).1 = (traverse root).take n
      ∧ traverse (splitBy compare root key mode).2 = (traverse root).drop n
      ∧ traverse (splitBy compare root key mode).1
          = (traverse root).filter (fun x => compare x key mode)
      ∧ traverse (splitBy compare root key mode).2
          = (traverse root).filter (fun x => !compare x key mode) := by
  simp only [traverse_eq_toList] at htrue hfalse ⊢
  obtain ⟨e1, e2⟩ := splitBy_spec compare key mode root _ _
    (List.take_append_drop n (toList root)).symm htrue hfalse
  obtain ⟨f1, f2⟩ := filter_split_true (fun x => compare x key mode) _ _ htrue hfalse
  rw [List.take_append_drop] at f1 f2
  exact ⟨e1, e2, by rw [e1, f1], by rw [e2, f2]⟩

theorem splitBy_routes_true_left_witness :
    (∀ x ∈ (traverse keyed3).take 1, orderCompare x 3 .Higher = true)
      ∧ (∀ x ∈ (traverse keyed3).drop 1, orderCompare x 3 .Higher = false)
      ∧ traverse (splitBy orderCompare keyed3 3 .Higher).1 = (traverse keyed3).take 1
      ∧ traverse (splitBy orderCompare keyed3 3 .Higher).2 = (traverse keyed3).drop 1
      ∧ traverse (splitBy orderCompare keyed3 3 .Higher).1
          = (traverse keyed3).filter (fun x => orderCompare x 3 .Higher)
      ∧ traverse (splitBy orderCompare keyed3 3 .Higher).2
          = (traverse keyed3).filter (fun x => !orderCompare x 3 .Higher) := by
  have e : traverse keyed3 = [5, 3, 1] := by simp [traverse, print, push, keyed3]
  have h1 : ∀ x ∈ (traverse keyed3).take 1, orderCompare x 3 .Higher = true := by
    rw [e]; simp [orderCompare]
  have h2 : ∀ x ∈ (traverse keyed3).drop 1, orderCompare x 3 .Higher = false := by
    rw [e]; simp [orderCompare]
  exact ⟨h1, h2, splitBy_routes_true_left orderCompare keyed3 3 .Higher 1 h1 h2⟩

/-! ## Insert and erase by predicate -/

theorem threshold_split {κ : Type} [LinearOrder κ] (keyOf : α → κ) (P : κ → Prop)
    (hP : ∀ a b, a ≤ b → P a → P b) (l : List α)
    (hl : l.Pairwise (fun a b => keyOf b ≤ keyOf a)) :
    ∃ xs ys, l = xs ++ ys ∧ (∀ x ∈ xs, P (keyOf x)) ∧ (∀ y ∈ ys, ¬ P (keyOf y)) := by
  induction l with
  | nil => exact ⟨[], [], rfl, by simp, by simp⟩
  | cons a l ih =>
    rw [List.pairwise_cons] at hl
    by_cases ha : P (keyOf a)
    · obtain ⟨xs, ys, e, h1, h2⟩ := ih hl.2
      refine ⟨a :: xs, ys, by rw [e]; rfl, ?_, h2⟩
      intro x hx
      rcases List.mem_cons.1 hx with rfl | hx
      · exact ha
      · exact h1 x hx
    · refine ⟨[], a :: l, rfl, by simp, ?_⟩
      intro y hy
      rcases List.mem_cons.1 hy with rfl | hy
      · exact ha
      · exact fun hyP => ha (hP _ _ (hl.1 y hy) hyP)

theorem splitBy_sorted {κ : Type} [LinearOrder κ] (compare : α → κ → Action → Bool)
    (keyOf : α → κ) (mode : Action) (P : κ → κ → Prop)
    (hP : ∀ k a b, a ≤ b → P k a → P k b)
    (hc : ∀ v k, compare v k mode = true ↔ P k (keyOf v))
    (t : Node α) (key : κ) (hl : (toList t).Pairwise (fun a b => keyOf b ≤ keyOf a)) :
    toList (splitBy compare t key mode).1 ++ toList (splitBy compare t key mode).2 = toList t
      ∧ (∀ x ∈ toList (splitBy compare t key mode).1, P key (keyOf x))
      ∧ (∀ y ∈ toList (splitBy compare t key mode).2, ¬ P key (keyOf y)) := by
  obtain ⟨xs, ys, e, h1, h2⟩ := threshold_split keyOf (P key) (hP key) (toList t) hl
  obtain ⟨e1, e2⟩ := splitBy_spec compare key mode t xs ys e
    (fun x hx => (hc x key).2 (h1 x hx))
    (fun y hy => by
      cases hcv : compare y key mode with
      | false => rfl
      | true => exact absurd ((hc y key).1 hcv) (h2 y hy))
  rw [e1, e2]
  exact ⟨e.symm, h1, h2⟩

theorem insertBy_sorted {κ : Type} [LinearOrder κ] [Inhabited α]
    (compare : α → κ → Action → Bool) (keyOf : α → κ)
    (hHigher : ∀ v k, compare v k .Higher = true ↔ k < keyOf v)
    (root : Node α) (v : α) (prio : Int)
    (hl : (toList root).Pairwise (fun a b => keyOf b ≤ keyOf a)) :
    (toList (insertBy compare root (newNode v prio) (keyOf v))).Pairwise
      (fun a b => keyOf b ≤ keyOf a) := by
  cases root with
  | null => simp [insertBy, newNode_toList]
  | mk l r v0 ta s p rev asg =>
    simp only [insertBy]
    by_cases hs : s = 0
    · rw [if_pos hs, newNode_toList]; simp
    · rw [if_neg hs]
      obtain ⟨e, h1, h2⟩ := splitBy_sorted compare keyOf .Higher (fun k a => k < a)
        (fun k a b hab hka => lt_of_lt_of_le hka hab) hHigher _ (keyOf v) hl
      rw [← e, List.pairwise_append] at hl
      obtain ⟨s1, s2, -⟩ := hl
      rw [merge_toList, merge_toList, newNode_toList, List.pairwise_append]
      refine ⟨s1, ?_, ?_⟩
      · rw [List.singleton_append, List.pairwise_cons]
        exact ⟨fun y hy => not_lt.1 (h2 y hy), s2⟩
      · intro x hx y hy
        rw [List.singleton_append, List.mem_cons] at hy
        rcases hy with rfl | hy
        · exact le_of_lt (h1 x hx)
        · exact le_trans (not_lt.1 (h2 y hy)) (le_of_lt (h1 x hx))

theorem built_sorted {κ : Type} [LinearOrder κ] [Inhabited α]
    (compare : α → κ → Action → Bool) (keyOf : α → κ)
    (hHigher : ∀ v k, compare v k .Higher = true ↔ k < keyOf v)
    (root : Node α) (hb : Built compare keyOf root) :
    (toList root).Pairwise (fun a b => keyOf b ≤ keyOf a) := by
  induction hb with
  | null => simp [toList]
  | placeholder => simp [emptyNode, toList]
  | insert root v prio _ ih => exact insertBy_sorted compare keyOf hHigher root v prio ih

theorem eraseBy_toList {κ : Type} [LinearOrder κ]
    (compare : α → κ → Action → Bool) (keyOf : α → κ)
    (hHigher : ∀ v k, compare v k .Higher = true ↔ k < keyOf v)
    (hGe : ∀ v k, compare v k .HigherOrEqual = true ↔ k ≤ keyOf v)
    (root : Node α) (key : κ)
    (hl : (toList root).Pairwise (fun a b => keyOf b ≤ keyOf a)) :
    toList (eraseBy compare root key)
      = (toList root).filter (fun x => decide (keyOf x ≠ key)) := by
  obtain ⟨e, h1, h2⟩ := splitBy_sorted compare keyOf .Higher (fun k a => k < a)
    (fun k a b hab hka => lt_of_lt_of_le hka hab) hHigher root key hl
  have hl2 : (toList (splitBy compare root key .Higher).2).Pairwise
      (fun a b => keyOf b ≤ keyOf a) := by
    rw [← e, List.pairwise_append] at hl
    exact hl.2.1
  obtain ⟨f, g1, g2⟩ := splitBy_sorted compare keyOf .HigherOrEqual (fun k a => k ≤ a)
    (fun k a b hab hka => le_trans hka hab) hGe _ key hl2
  simp only [eraseBy]
  rw [merge_toList, ← e, ← f, List.filter_append, List.filter_append]
  have k1 : (toList (splitBy compare root key .Higher).1).filter
      (fun x => decide (keyOf x ≠ key)) = toList (splitBy compare root key .Higher).1 :=
    List.filter_eq_self.2 (fun x hx => by simpa using ne_of_gt (h1 x hx))
  have k2 : (toList (splitBy compare (splitBy compare root key .Higher).2 key
      .HigherOrEqual).1).filter (fun x => decide (keyOf x ≠ key)) = [] :=
    List.filter_eq_nil_iff.2 (fun x hx => by
      have a1 := g1 x hx
      have a2 := h2 x (by rw [← f]; exact List.mem_append_left _ hx)
      simpa using le_antisymm (not_lt.1 a2) a1)
  have k3 : (toList (splitBy compare (splitBy compare root key .Higher).2 key
      .HigherOrEqual).2).filter (fun x => decide (keyOf x ≠ key))
      = toList (splitBy compare (splitBy compare root key .Higher).2 key .HigherOrEqual).2 :=
    List.filter_eq_self.2 (fun x hx => by simpa using ne_of_lt (not_le.1 (g2 x hx)))
  rw [k1, k2, k3, List.nil_append]

theorem splitBy_sizeInv {κ : Type} (compare : α → κ → Action → Bool) (point : κ)
    (action : Action) (t : Node α) :
    SizeInv t → SizeInv (splitBy compare t point action).1
      ∧ SizeInv (splitBy compare t point action).2 := by
  induction t using push_induction with
  | hnull => intro _; rw [splitBy_null]; exact ⟨trivial, trivial⟩
  | hmk t l1 r1 v ta s p hp ihl ihr =>
    intro hinv
    rw [← sizeInv_push, hp] at hinv
    obtain ⟨-, c2, c3⟩ := hinv
    rw [splitBy_of_push compare hp]
    cases compare v point action with
    | false =>
      simp only [Bool.not_false, if_true]
      exact ⟨(ihl c2).1, by simp only [update, SizeInv]; exact ⟨by omega, (ihl c2).2, c3⟩⟩
    | true =>
      simp only [Bool.not_true, Bool.false_eq_true, if_false]
      exact ⟨by simp only [update, SizeInv]; exact ⟨by omega, c2, (ihr c3).1⟩, (ihr c3).2⟩

theorem insertBy_toList {κ : Type} [LinearOrder κ] [Inhabited α]
    (compare : α → κ → Action → Bool) (keyOf : α → κ)
    (hHigher : ∀ v k, compare v k .Higher = true ↔ k < keyOf v)
    (root : Node α) (v : α) (prio : Int) (hne : root ≠ .null) (hs : SizeInv root)
    (hl : (toList root).Pairwise (fun a b => keyOf b ≤ keyOf a)) :
    toList (insertBy compare root (newNode v prio) (keyOf v))
        = (toList root).filter (fun x => decide (keyOf v < keyOf x))
          ++ v :: (toList root).filter (fun x => !decide (keyOf v < keyOf x))
      ∧ SizeInv (insertBy compare root (newNode v prio) (keyOf v))
      ∧ insertBy compare root (newNode v prio) (keyOf v) ≠ .null := by
  have hpos := sizeInv_size_pos hne hs
  cases root with
  | null => exact absurd rfl hne
  | mk l r v0 ta s p rev asg =>
    have hs0 : s ≠ 0 := hpos
    simp only [insertBy, if_neg hs0]
    obtain ⟨e, h1, h2⟩ := splitBy_sorted compare keyOf .Higher (fun k a => k < a)
      (fun k a b hab hka => lt_of_lt_of_le hka hab) hHigher _ (keyOf v) hl
    obtain ⟨f1, f2⟩ := filter_split_true (fun x => decide (keyOf v < keyOf x)) _ _
      (fun x hx => by simpa using h1 x hx) (fun y hy => by simpa using h2 y hy)
    rw [e] at f1 f2
    obtain ⟨i1, i2⟩ := splitBy_sizeInv compare (keyOf v) .Higher _ hs
    have ht : toList (merge (splitBy compare (Node.mk l r v0 ta s p rev asg) (keyOf v)
        .Higher).1 (merge (newNode v prio) (splitBy compare (Node.mk l r v0 ta s p rev asg)
        (keyOf v) .Higher).2))
        = (toList (Node.mk l r v0 ta s p rev asg)).filter (fun x => decide (keyOf v < keyOf x))
          ++ v :: (toList (Node.mk l r v0 ta s p rev asg)).filter
            (fun x => !decide (keyOf v < keyOf x)) := by
      rw [merge_toList, merge_toList, newNode_toList, f1, f2]
      rfl
    refine ⟨ht, merge_sizeInv _ _ i1 (merge_sizeInv _ _ (newNode_sizeInv v prio) i2), ?_⟩
    apply ne_null_of_toList
    rw [ht]
    simp

/-- The example of C17 in full: the elements keyed 1, 5, 3 inserted in any
order, with any priorities, into the empty root; `erase(key = 3)` leaves the
elements keyed 5 and 1, in the order the tree keeps (higher keys first). -/
theorem eraseBy_example_any_order (a b c pa pb pc : Int) (hperm : List.Perm [a, b, c] [1, 5, 3]) :
    traverse (eraseBy orderCompare
      (insertBy orderCompare
        (insertBy orderCompare
          (insertBy orderCompare .null (newNode a pa) a) (newNode b pb) b)
        (newNode c pc) c) 3) = [5, 1] := by
  have hH : ∀ v k : Int, orderCompare v k .Higher = true ↔ k < id v := by
    intro v k; simp [orderCompare]
  have hG : ∀ v k : Int, orderCompare v k .HigherOrEqual = true ↔ k ≤ id v := by
    intro v k; simp [orderCompare]
  have e1 : insertBy orderCompare .null (newNode a pa) a = newNode a pa := rfl
  have b1 : Built orderCompare id (newNode a pa) :=
    (Built.insert .null a pa Built.null :
      Built orderCompare id (insertBy orderCompare .null (newNode a pa) (id a)))
  have b2 : Built orderCompare id (insertBy orderCompare (newNode a pa) (newNode b pb) (id b)) :=
    Built.insert _ b pb b1
  have b3 : Built orderCompare id
      (insertBy orderCompare (insertBy orderCompare (newNode a pa) (newNode b pb) (id b))
        (newNode c pc) (id c)) :=
    Built.insert _ c pc b2
  obtain ⟨l2, s2, n2⟩ := insertBy_toList orderCompare id hH (newNode a pa) b pb
    (by simp [newNode]) (newNode_sizeInv a pa) (built_sorted orderCompare id hH _ b1)
  obtain ⟨l3, -, -⟩ := insertBy_toList orderCompare id hH _ c pc n2 s2
    (built_sorted orderCompare id hH _ b2)
  have l4 := eraseBy_toList orderCompare id hH hG _ 3 (built_sorted orderCompare id hH _ b3)
  simp only [id] at l2 l3 l4
  rw [e1, traverse_eq_toList, l4, l3, l2, newNode_toList]
  have ha : a ∈ [(1 : Int), 5, 3] := hperm.subset (by simp)
  have hb : b ∈ [(1 : Int), 5, 3] := hperm.subset (by simp)
  have hc : c ∈ [(1 : Int), 5, 3] := hperm.subset (by simp)
  simp only [List.mem_cons, List.mem_singleton, List.not_mem_nil, or_false] at ha hb hc
  rcases ha with rfl | rfl | rfl <;> rcases hb with rfl | rfl | rfl <;>
    rcases hc with rfl | rfl | rfl <;>
    first
      | (exfalso; revert hperm; decide)
      | decide

/-! ## Merge is associative -/

theorem null_or_push (t : Node α) :
    t = .null ∨ ∃ l r v ta s p, push t = .mk l r v ta s p false false := by
  cases t with
  | null => exact Or.inl rfl
  | mk l r v ta s p rev asg =>
    obtain ⟨l1, r1, h⟩ := push_mk l r v ta s p rev asg
    exact Or.inr ⟨l1, r1, v, ta, s, p, h⟩

theorem ne_null_of_push {t l r : Node α} {v ta : α} {s : Nat} {p : Int} {rev asg : Bool}
    (h : push t = .mk l r v ta s p rev asg) : t ≠ .null := by
  intro hn
  rw [hn] at h
  simp [push] at h

theorem push_ne_null {t : Node α} (h : t ≠ .null) : push t ≠ .null := by
  cases t with
  | null => exact absurd rfl h
  | mk l r v ta s p rev asg => simp [push]

theorem merge_push_left (a b : Node α) (hb : b ≠ .null) : merge (push a) b = merge a b := by
  rcases null_or_push a with rfl | ⟨al, ar, av, ata, as, ap, ha⟩
  · rfl
  · rcases null_or_push b with rfl | ⟨bl, br, bv, bta, bs, bp, hb1⟩
    · exact absurd rfl hb
    · have ha2 : push (push a) = .mk al ar av ata as ap false false := by rw [push_idem, ha]
      rw [merge_of_push ha2 hb1, merge_of_push ha hb1, push_idem]

theorem merge_push_right (a b : Node α) (ha : a ≠ .null) : merge a (push b) = merge a b := by
  rcases null_or_push b with rfl | ⟨bl, br, bv, bta, bs, bp, hb⟩
  · rfl
  · rcases null_or_push a with rfl | ⟨al, ar, av, ata, as, ap, ha1⟩
    · exact absurd rfl ha
    · have hb2 : push (push b) = .mk bl br bv bta bs bp false false := by rw [push_idem, hb]
      rw [merge_of_push ha1 hb2, merge_of_push ha1 hb, push_idem]

theorem push_update_clean (l r : Node α) (v ta : α) (s : Nat) (p : Int) :
    push (update (.mk l r v ta s p false false))
      = .mk l r v ta (size l + size r + 1) p false false := by
  simp [push, update]

theorem update_clean (l r : Node α) (v ta : α) (s : Nat) (p : Int) :
    update (.mk l r v ta s p false false)
      = .mk l r v ta (size l + size r + 1) p false false := rfl

theorem merge_assoc (a b c : Node α) : merge (merge a b) c = merge a (merge b c) := by
  generalize hn : nodes a + nodes b + nodes c = n
  induction n using Nat.strong_induction_on generalizing a b c with
  | _ n ih =>
    subst hn
    rcases null_or_push a with rfl | ⟨al, ar, av, ata, as, ap, ha⟩
    · simp only [merge_null_left]
    rcases null_or_push b with rfl | ⟨bl, br, bv, bta, bs, bp, hb⟩
    · simp only [merge_null_left, merge_null_right]
    rcases null_or_push c with rfl | ⟨cl, cr, cv, cta, cs, cp, hc⟩
    · simp only [merge_null_right]
    have na := ne_null_of_push ha
    have nb := ne_null_of_push hb
    have nc := ne_null_of_push hc
    have hbc : merge (push b) (push c) = merge b c := by
      rw [merge_push_left b _ (push_ne_null nc), merge_push_right b c nb]
    have hab : merge (push a) (push b) = merge a b := by
      rw [merge_push_left a _ (push_ne_null nb), merge_push_right a b na]
    have key1 : merge (merge ar (push b)) (push c) = merge ar (merge b c) := by
      have h1 := nodes_push_right ha
      rw [ih _ (by rw [nodes_push, nodes_push]; omega) ar (push b) (push c) rfl, hbc]
    have key2 : merge (merge a b) cl = merge (push a) (merge (push b) cl) := by
      have h1 := nodes_push_left hc
      rw [← hab, ih _ (by rw [nodes_push, nodes_push]; omega) (push a) (push b) cl rfl]
    by_cases h1 : ap < bp
    · -- `a` stays on top of `merge a b`
      have hX : merge a b
          = .mk al (merge ar (push b)) av ata (size al + size (merge ar (push b)) + 1) ap
              false false := by
        rw [merge_of_push ha hb, if_pos h1, update_clean]
      have hpX : push (merge a b) = merge a b := by rw [hX]; simp [push]
      by_cases h2 : bp < cp
      · have h3 : ap < cp := by omega
        have hY : merge b c
            = .mk bl (merge br (push c)) bv bta (size bl + size (merge br (push c)) + 1) bp
                false false := by
          rw [merge_of_push hb hc, if_pos h2, update_clean]
        have hpY : push (merge b c) = merge b c := by rw [hY]; simp [push]
        rw [merge_of_push (hpX.trans hX) hc, if_pos h3,
          merge_of_push ha (hpY.trans hY), if_pos h1, key1, hpY, update_clean, update_clean]
      · have hY : merge b c
            = .mk (merge (push b) cl) cr cv cta (size (merge (push b) cl) + size cr + 1) cp
                false false := by
          rw [merge_of_push hb hc, if_neg h2, update_clean]
        have hpY : push (merge b c) = merge b c := by rw [hY]; simp [push]
        by_cases h3 : ap < cp
        · rw [merge_of_push (hpX.trans hX) hc, if_pos h3,
            merge_of_push ha (hpY.trans hY), if_pos h3, key1, hpY, update_clean, update_clean]
        · rw [merge_of_push (hpX.trans hX) hc, if_neg h3,
            merge_of_push ha (hpY.trans hY), if_neg h3, hpX, key2, update_clean,
            update_clean]
    · -- `b` goes on top of `merge a b`
      have hX : merge a b
          = .mk (merge (push a) bl) br bv bta (size (merge (push a) bl) + size br + 1) bp
              false false := by
        rw [merge_of_push ha hb, if_neg h1, update_clean]
      have hpX : push (merge a b) = merge a b := by rw [hX]; simp [push]
      by_cases h2 : bp < cp
      · have hY : merge b c
            = .mk bl (merge br (push c)) bv bta (size bl + size (merge br (push c)) + 1) bp
                false false := by
          rw [merge_of_push hb hc, if_pos h2, update_clean]
        have hpY : push (merge b c) = merge b c := by rw [hY]; simp [push]
        rw [merge_of_push (hpX.trans hX) hc, if_pos h2,
          merge_of_push ha (hpY.trans hY), if_neg h1, update_clean, update_clean]
      · have h3 : ¬ ap < cp := by omega
        have hY : merge b c
            = .mk (merge (push b) cl) cr cv cta (size (merge (push b) cl) + size cr + 1) cp
                false false := by
          rw [merge_of_push hb hc, if_neg h2, update_clean]
        have hpY : push (merge b c) = merge b c := by rw [hY]; simp [push]
        rw [merge_of_push (hpX.trans hX) hc, if_neg h2,
          merge_of_push ha (hpY.trans hY), if_neg h3, hpX, key2, update_clean, update_clean]

/-! ## The claims on the predicate-keyed variant -/

/-- C17: for a comparator that orders the keys totally and answers `Higher` as
"strictly greater" and `HigherOrEqual` as "greater-or-equal" (element against
query key), and every tree built by predicate-keyed inserts,
`erase(root, key)` leaves a tree whose traversal is the previous traversal
without the elements whose key equals `key`, all other elements kept in order;
no element with that key remains, and the result is still in key order (the
order the tree keeps: higher keys first). -/
theorem eraseBy_removes_key_band {κ : Type} [LinearOrder κ] [Inhabited α]
    (compare : α → κ → Action → Bool) (keyOf : α → κ)
    (hHigher : ∀ v k, compare v k .Higher = true ↔ k < keyOf v)
    (hGe : ∀ v k, compare v k .HigherOrEqual = true ↔ k ≤ keyOf v)
    (root : Node α) (hb : Built compare keyOf root) (key : κ) :
    traverse (eraseBy compare root key)
        = (traverse root).filter (fun x => decide (keyOf x ≠ key))
      ∧ (∀ x ∈ traverse (eraseBy compare root key), keyOf x ≠ key)
      ∧ (traverse (eraseBy compare root key)).Pairwise (fun a b => keyOf b ≤ keyOf a) := by
  have hl := built_sorted compare keyOf hHigher root hb
  have e := eraseBy_toList compare keyOf hHigher hGe root key hl
  simp only [traverse_eq_toList]
  refine ⟨e, ?_, ?_⟩
  · intro x hx
    rw [e, List.mem_filter] at hx
    simpa using hx.2
  · rw [e]
    exact hl.filter _

theorem eraseBy_removes_key_band_witness :
    (∀ v k : Int, orderCompare v k .Higher = true ↔ k < id v)
      ∧ (∀ v k : Int, orderCompare v k .HigherOrEqual = true ↔ k ≤ id v)
      ∧ Built orderCompare id
          (insertBy orderCompare
            (insertBy orderCompare (insertBy orderCompare .null (newNode 1 7) (id 1))
              (newNode 5 2) (id 5))
            (newNode 3 9) (id 3))
      ∧ (traverse (eraseBy orderCompare
            (insertBy orderCompare
              (insertBy orderCompare (insertBy orderCompare .null (newNode 1 7) (id 1))
                (newNode 5 2) (id 5))
              (newNode 3 9) (id 3)) 3)
          = (traverse
              (insertBy orderCompare
                (insertBy orderCompare (insertBy orderCompare .null (newNode 1 7) (id 1))
                  (newNode 5 2) (id 5))
                (newNode 3 9) (id 3))).filter (fun x => decide (id x ≠ 3))
        ∧ (∀ x ∈ traverse (eraseBy orderCompare
            (insertBy orderCompare
              (insertBy orderCompare (insertBy orderCompare .null (newNode 1 7) (id 1))
                (newNode 5 2) (id 5))
              (newNode 3 9) (id 3)) 3), id x ≠ 3)
        ∧ (traverse (eraseBy orderCompare
            (insertBy orderCompare
              (insertBy orderCompare (insertBy orderCompare .null (newNode 1 7) (id 1))
                (newNode 5 2) (id 5))
              (newNode 3 9) (id 3)) 3)).Pairwise (fun a b => id b ≤ id a)) := by
  have hH : ∀ v k : Int, orderCompare v k .Higher = true ↔ k < id v := by
    intro v k; simp [orderCompare]
  have hG : ∀ v k : Int, orderCompare v k .HigherOrEqual = true ↔ k ≤ id v := by
    intro v k; simp [orderCompare]
  have hb : Built orderCompare id
      (insertBy orderCompare
        (insertBy orderCompare (insertBy orderCompare .null (newNode 1 7) (id 1))
          (newNode 5 2) (id 5))
        (newNode 3 9) (id 3)) :=
    Built.insert _ 3 9 (Built.insert _ 5 2 (Built.insert _ 1 7 Built.null))
  exact ⟨hH, hG, hb, eraseBy_removes_key_band orderCompare id hH hG _ hb 3⟩

/-- C18: for every non-empty tree (stored size not 0), every new node and every
key, the root `insert(root, newNode, key)` installs,
`merge(left, merge(newNode, right))`, is the same tree as the specification's
`merge(merge(left, newNode), right)`; `merge` is associative on all trees,
priorities tied or not. -/
theorem insertBy_refines_spec {κ : Type} (compare : α → κ → Action → Bool)
    (root newNode : Node α) (key : κ) (hs : size root ≠ 0) :
    insertBy compare root newNode key = insertBySpec compare root newNode key
      ∧ insertBy compare root newNode key
          = merge (merge (splitBy compare root key .Higher).1 newNode)
              (splitBy compare root key .Higher).2
      ∧ ∀ a b c : Node α, merge (merge a b) c = merge a (merge b c) := by
  have e : insertBy compare root newNode key
      = merge (merge (splitBy compare root key .Higher).1 newNode)
          (splitBy compare root key .Higher).2 := by
    cases root with
    | null => exact absurd rfl hs
    | mk l r v ta s p rev asg =>
      have hs0 : s ≠ 0 := hs
      simp only [insertBy, if_neg hs0]
      rw [merge_assoc]
  exact ⟨e, e, merge_assoc⟩

theorem insertBy_refines_spec_witness :
    size keyed3 ≠ 0
      ∧ (insertBy orderCompare keyed3 (newNode 4 1) 4
          = insertBySpec orderCompare keyed3 (newNode 4 1) 4
        ∧ insertBy orderCompare keyed3 (newNode 4 1) 4
            = merge (merge (splitBy orderCompare keyed3 4 .Higher).1 (newNode 4 1))
                (splitBy orderCompare keyed3 4 .Higher).2
        ∧ ∀ a b c : Node Int, merge (merge a b) c = merge a (merge b c)) :=
  ⟨by decide, insertBy_refines_spec orderCompare keyed3 (newNode 4 1) 4 (by decide)⟩

end Treap
